import Mathlib

/-!
# A round-robin scheduled file server: `rr.c`, `vss.h`, `sws.c`

A shallow embedding of the scheduling core of the server.

* `rcb` is the request control block.  Pointers to entries of the static table
  `requests[MAX_REQS]` are table indices, `none` is the null pointer.
* The headers `rcb.h`, `queue.h`, `scheduler.h` and `network.h` are not among the
  sources.  What the code needs from them is modelled from the specification and
  marked as such.
* The integer fields of a record are `int`s, as the locals `n` and `len` of `serve`
  that are copied from and to them.  `serve_client` stores the size of the file
  through `toInt`, the value an `int` of 32 bits keeps of it, and `serve` reads
  that value in `n`.  A count is given to `fread` and `write` in the `int` local
  `len`; the call receives it as a `size_t` of 64 bits, `toSize len`.
* The results of the calls `fread` and `write` inside `serve` are inputs: an `Env`
  gives, for the iteration number of the loop and the amount asked, the value the
  call returns.
-/

namespace Sws

/-! ## Constants -/

/-- The constant `QUANTUM` of `rr.c` (line 14), the most sent in one turn. -/
def QUANTUM : Int := 8192

/-- The constant `MAX_HTTP_SIZE` of `sws.c` (line 20), the size of the buffer. -/
def MAX_HTTP_SIZE : Int := 8192

/-- The constant `MAX_REQS` of `sws.c` (line 21), the size of the table of records. -/
def MAX_REQS : Nat := 64

/-! ## The integer types of the program -/

/-- The value an `int` keeps of an integer stored in it: 32 bits, two's complement.
A size below `2^31` is kept, `2^32` becomes `0`, `2^32 - 100` becomes `-100`. -/
def toInt (x : Int) : Int := (x + 2147483648) % 4294967296 - 2147483648

/-- The value a `size_t` of 64 bits takes of an `int` passed where a `size_t` is
expected: a count that is not negative is kept, `-100` becomes `2^64 - 100`. -/
def toSize (x : Int) : Int := x % 18446744073709551616

/-! ## The request control block -/

/-- Modelled from the spec: the declaration of `rcb` (header `rcb.h`) is missing.  The
fields are the ones the sources use: `seq` (sequenceId), `client` (clientHandle),
`file` (sourceHandle), `left` (bytesRemaining), `max` (quantum), `last`
(lastTurnSize) and `next` (chainLink).  The integer fields hold the values of an
`int`. -/
structure rcb where
  seq : Int
  client : Int
  file : Option Nat
  left : Int
  max : Int
  last : Int
  next : Option Nat
deriving DecidableEq, Repr

/-- The record `memset( r, 0, sizeof( rcb ) )` leaves behind. -/
def rcb.zero : rcb := ⟨0, 0, none, 0, 0, 0, none⟩

/-! ## One turn: `serve` -/

/-- One call of `fread` or `write` made by `serve`: the value of the `int` local
`len` given as the count, and the value returned, as stored in `len`. -/
inductive Event where
  | fread (asked got : Int)
  | write (asked got : Int)
deriving DecidableEq, Repr

/-- The value a call returned. -/
def Event.got : Event → Int
  | Event.fread _ got => got
  | Event.write _ got => got

/-- The values returned by the calls of `fread` and `write` in one call of `serve`, as
they are stored in the `int` local `len`: `fread k a` is what the read of iteration
`k` of the loop returns when its count is the `int` `a`, `write k a` what the write
of that iteration returns when its count is the `int` `a`.  The call receives the
count as the `size_t` `toSize a`, which is `a` when `a` is not negative. -/
structure Env where
  fread : Nat → Int → Int
  write : Nat → Int → Int

/-- What one call of `serve` leaves: the value returned, the record, the calls made
in order, and whether `perror` was called (a read or a write failed). -/
structure Turn where
  ret : Int
  req : rcb
  trace : List Event
  failed : Bool
deriving DecidableEq, Repr

/-- Line 135 of `serve`: `len = n < MAX_HTTP_SIZE ? n : MAX_HTTP_SIZE`, the value of
the `int` local `len` that line 136 gives to `fread` as its count; `fread` receives
`toSize (chunk n)`. -/
def chunk (n : Int) : Int := if n < MAX_HTTP_SIZE then n else MAX_HTTP_SIZE

/-- The `do { ... } while( ( n > 0 ) && ( len == MAX_HTTP_SIZE ) )` loop of `serve`
(lines 134-149) followed by `return req->left > 0` (line 151).  `k` counts the
iterations already made, `n` is the local `n`. -/
def serve_loop (env : Env) (k : Nat) (n : Int) (req : rcb) : Turn :=
  let len := chunk n
  let got := env.fread k len
  if _h1 : got < 1 then
    ⟨0, req, [Event.fread len got], true⟩
  else
    let w := env.write k got
    if _h2 : w < 1 then
      ⟨0, req, [Event.fread len got, Event.write got w], true⟩
    else
      let req1 : rcb := { req with left := req.left - w }
      if _h3 : n - w > 0 ∧ w = MAX_HTTP_SIZE then
        let t := serve_loop env (k + 1) (n - w) req1
        { t with trace := Event.fread len got :: Event.write got w :: t.trace }
      else
        ⟨if req1.left > 0 then 1 else 0, req1,
          [Event.fread len got, Event.write got w], false⟩
termination_by n.toNat
decreasing_by
  show (n - w).toNat < n.toNat
  omega

/-- The function `serve` of `sws.c` (lines 126-151).  Line 126, `n = req->left`,
copies the field in the `int` local `n`: in a record admitted by `serve_client` it
is `toInt` of the size of the file, `0` for a file of `2^32` bytes and negative for
one of `2^31` to `2^32 - 1` bytes. -/
def serve (env : Env) (req : rcb) : Turn :=
  let n := req.left
  if n = 0 then
    ⟨0, req, [], false⟩
  else
    let n1 := if req.max ≠ 0 ∧ req.max < n then req.max else n
    serve_loop env 0 n1 { req with last := n1 }

/-- Bytes handed to the client by the calls in a trace: the sum of the positive
results of `write`. -/
def bytesWritten : List Event → Int
  | [] => 0
  | Event.write _ got :: tr => (if got > 0 then got else 0) + bytesWritten tr
  | Event.fread _ _ :: tr => bytesWritten tr

/-- Every read and every write transfers exactly the amount asked. -/
def full : Env := ⟨fun _ a => a, fun _ a => a⟩

/-! ## The ready queue and the round-robin scheduler: `rr.c` -/

/-- Modelled from the spec: the queue of `queue.h` is missing.  It is "an ordered
FIFO" of request handles: the handles in the order of their arrival, oldest
first. -/
abbrev queue := List Nat

/-- Modelled from the spec: `queue_enqueue` is missing; "enqueue appends". -/
def queue_enqueue (q : queue) (r : Nat) : queue := q ++ [r]

/-- Modelled from the spec: `queue_dequeue` is missing; "dequeue removes-and-returns
the oldest handle or a none sentinel". -/
def queue_dequeue (q : queue) : Option Nat × queue :=
  match q with
  | [] => (none, [])
  | r :: q1 => (some r, q1)

/-- Where `main` stands between two of its calls: at the head of the connection loop
holding no record (`idle`), after `serve_client` returned the record `r` and before
it is submitted (`admitted r`), after `scheduler_get_next` returned the record `r`
and before its turn is over (`running r`); or nowhere any more, the process having
died in `serve_client` (`dead`). -/
inductive PC where
  | idle
  | admitted (r : Nat)
  | running (r : Nat)
  | dead
deriving DecidableEq, Repr

/-- The calls by which a request ends: `fclose` of a file, `close` of a connection and
the `printf` of the line `Request %d completed.` -/
inductive Action where
  | fclose (file : Option Nat)
  | close (fd : Int)
  | printf (seq : Int)
deriving DecidableEq, Repr

/-- The static data of the program: the table `requests`, the head `free_rcb` of
the free list and the counter `next_req` of `sws.c`, the queue `ready` of `rr.c`,
the calls of `fclose`, `close` and `printf` made so far, and the place where `main`
stands. -/
structure State where
  requests : Nat → rcb
  free_rcb : Option Nat
  next_req : Int
  ready : queue
  out : List Action
  pc : PC

/-- The function `submit` of `rr.c` (lines 30-35); `none` is the failing
`assert( r )`. -/
def submit (s : State) (r : Option Nat) : Option State :=
  match r with
  | none => none
  | some i =>
    some { s with
      requests := Function.update s.requests i { s.requests i with max := QUANTUM }
      ready := queue_enqueue s.ready i }

/-- The function `get_next` of `rr.c` (lines 47-49). -/
def get_next (s : State) : Option Nat × State :=
  ((queue_dequeue s.ready).1, { s with ready := (queue_dequeue s.ready).2 })

/-- The scheduler structure of `vss.h`: a name and the two function pointers. -/
structure vss where
  name : String
  submit : State → Option Nat → Option State
  get_next : State → Option Nat × State

/-- The scheduler `rr_scheduler = { "RR", &submit, &get_next }` of `rr.c`. -/
def rr_scheduler : vss := ⟨"RR", submit, get_next⟩

/-- Modelled from the spec: `scheduler_submit` (`scheduler.h`) is missing.  The driver
"holds exactly one active policy, selected at startup"; this development runs the
driver with the round-robin policy selected. -/
def scheduler_submit (s : State) (r : Option Nat) : Option State :=
  rr_scheduler.submit s r

/-- Modelled from the spec: `scheduler_get_next` (`scheduler.h`) is missing; it is the
`get_next` of the active policy, round robin. -/
def scheduler_get_next (s : State) : Option Nat × State :=
  rr_scheduler.get_next s

/-! ## Admission: `serve_client` -/

/-- What `serve_client` finds on a connection: the request line cannot be read
(lines 58-62), it is not a `GET` (400, lines 74-76), the file cannot be opened (404,
lines 80-82, where `fin` is null), `fstat` fails on the opened file `fin` (line 83),
or the file `fin` is opened and has `size` bytes (lines 83-96). -/
inductive Request where
  | unreadable
  | bad
  | missing
  | nostat (fin : Nat)
  | file (fin : Nat) (size : Int)
deriving DecidableEq, Repr

/-- The record `serve_client` returns for the file `fin` of `size` bytes requested on
`fd`, numbered `seq` (lines 90-95): `r->left = st.st_size` keeps of the size what an
`int` holds, the value `serve` reads in its local `n`. -/
def fresh (seq fd : Int) (fin : Nat) (size : Int) : rcb :=
  { rcb.zero with seq := seq, client := fd, file := some fin, left := toInt size }

/-- The function `serve_client` of `sws.c`: the record returned (`none` is `NULL`)
and the new state; the outer `none` is the failing `assert( r )` of line 88.  After
a failed `fstat` the code goes through `fclose( fin )` of line 98 and `close( fd )`
of line 100.  After a 404 `fin` is the null pointer and `fclose( fin )` of line 98
is called on it: the process dies there, `close( fd )` is not reached and the
function does not return; the state is the one the process dies in. -/
def serve_client (s : State) (fd : Int) (rq : Request) : Option (Option Nat × State) :=
  match rq with
  | Request.unreadable => some (none, { s with out := s.out ++ [Action.close fd] })
  | Request.bad => some (none, { s with out := s.out ++ [Action.close fd] })
  | Request.missing =>
    some (none, { s with out := s.out ++ [Action.fclose none], pc := PC.dead })
  | Request.nostat fin =>
    some (none, { s with out := s.out ++ [Action.fclose (some fin), Action.close fd] })
  | Request.file fin size =>
    match s.free_rcb with
    | none => none
    | some r =>
      some (some r,
        { s with
          free_rcb := (s.requests r).next
          requests := Function.update s.requests r (fresh s.next_req fd fin size)
          next_req := s.next_req + 1 })

/-! ## The driver: `main` -/

/-- The state when `main` enters its loop (lines 23-25 and 181-184): the table is
zero but for the links of the free list, which runs through the whole table. -/
def main_init : State where
  requests := fun i => if i < MAX_REQS - 1 then { rcb.zero with next := some (i + 1) } else rcb.zero
  free_rcb := some 0
  next_req := 1
  ready := []
  out := []
  pc := PC.idle

/-- Lines 190-192 of `main`: `network_open` returned the connection `fd`, then
`assert( free_rcb )` and `req = serve_client( fd )`.  `none` is a failing
assertion; when the process died in `serve_client` the state is the one it died
in. -/
def main_open (s : State) (fd : Int) (rq : Request) : Option State :=
  if s.free_rcb = none then none
  else
    match serve_client s fd rq with
    | none => none
    | some (none, s1) => some (if s1.pc = PC.dead then s1 else { s1 with pc := PC.idle })
    | some (some r, s1) => some { s1 with pc := PC.admitted r }

/-- Lines 193-195 of `main`: `scheduler_submit( req )` for the record `r` that
`serve_client` returned. -/
def main_submit (s : State) (r : Nat) : Option State :=
  (scheduler_submit s (some r)).map fun s1 => { s1 with pc := PC.idle }

/-- Line 198 of `main`: `req = scheduler_get_next()`. -/
def main_get_next (s : State) : State :=
  match (scheduler_get_next s).1 with
  | none => { (scheduler_get_next s).2 with pc := PC.idle }
  | some r => { (scheduler_get_next s).2 with pc := PC.running r }

/-- Lines 202-207 of `main`: the record `r` goes back to the head of the free list,
its handles are closed and the completion line is printed. -/
def main_release (s : State) (r : Nat) : State :=
  { s with
    requests := Function.update s.requests r { s.requests r with next := s.free_rcb }
    free_rcb := some r
    out := s.out ++ [Action.fclose (s.requests r).file, Action.close (s.requests r).client,
      Action.printf (s.requests r).seq]
    pc := PC.idle }

/-- Lines 199-208 of `main` for the record `r` that `scheduler_get_next` returned:
`serve( req )`, then `scheduler_submit( req )` when it returned non-zero, else the
release of the record. -/
def main_turn (env : Env) (s : State) (r : Nat) : Option State :=
  let t := serve env (s.requests r)
  let s1 : State := { s with requests := Function.update s.requests r t.req }
  if t.ret ≠ 0 then
    (scheduler_submit s1 (some r)).map fun s2 => { s2 with pc := PC.idle }
  else
    some (main_release s1 r)

/-- One step of the driver, from a call of `main` to the next: a connection is
opened and `serve_client` runs on it (`conn`), a record returned by `serve_client` is
submitted (`submit`), `scheduler_get_next` is called (`next`), the turn of the record
it returned runs to its end (`turn`).  The connections, the requests read on them
and the results of the reads and writes are arbitrary.  No step follows the death
of the process. -/
inductive Step : State → State → Prop where
  | conn {s s1 : State} (fd : Int) (rq : Request) :
      s.pc = PC.idle → main_open s fd rq = some s1 → Step s s1
  | submit {s s1 : State} (r : Nat) :
      s.pc = PC.admitted r → main_submit s r = some s1 → Step s s1
  | next {s : State} :
      s.pc = PC.idle → Step s (main_get_next s)
  | turn {s s1 : State} (env : Env) (r : Nat) :
      s.pc = PC.running r → main_turn env s r = some s1 → Step s s1

/-- The states the driver goes through, from the state in which `main` enters its
loop. -/
def Reachable (s : State) : Prop := Relation.ReflTransGen Step main_init s

/-- The records reached from the pointer `p` along the field `next`, at most `fuel`
of them. -/
def chain (h : Nat → rcb) : Nat → Option Nat → List Nat
  | 0, _ => []
  | _ + 1, none => []
  | fuel + 1, some i => i :: chain h fuel (h i).next

/-- The records on the free list, from its head `free_rcb`. -/
def freeList (s : State) : List Nat := chain s.requests MAX_REQS s.free_rcb

/-- The list `l` is exactly the list of records from the pointer `p` along `next` up
to the null pointer. -/
def isChain (h : Nat → rcb) : Option Nat → List Nat → Prop
  | p, [] => p = none
  | p, i :: l => p = some i ∧ isChain h (h i).next l

/-- The record the driver holds, if any. -/
def held (s : State) : List Nat :=
  match s.pc with
  | PC.idle => []
  | PC.admitted r => [r]
  | PC.running r => [r]
  | PC.dead => []

/-! ## The turns of one request under round robin -/

/-- The record of a request as it waits in the ready queue for its turn number
`i + 1`: the record `r` as `serve_client` returned it, after `i` turns run with `env`,
each `submit` before a turn having set `max` to `QUANTUM` (line 33 of `rr.c`). -/
def waiting (env : Env) (r : rcb) : Nat → rcb
  | 0 => { r with max := QUANTUM }
  | i + 1 => { (serve env (waiting env r i)).req with max := QUANTUM }

/-- Turn number `i + 1` of the request admitted with the record `r`. -/
def nthTurn (env : Env) (r : rcb) (i : Nat) : Turn := serve env (waiting env r i)

/-! ## Runs of the scheduler and of the driver -/

/-- The records of the list submitted to the round-robin scheduler one after the
other, first to last. -/
def submitAll (s : State) : List Nat → Option State
  | [] => some s
  | r :: rs =>
    match submit s (some r) with
    | none => none
    | some s1 => submitAll s1 rs

/-- One pass of the `do ... while( req )` loop of `main` in which `network_open` finds
no connection (lines 198-209): the record `scheduler_get_next` returned together
with the value `serve` returned for it, and the state after the pass. -/
def main_pass (env : Env) (s : State) : Option (Option (Nat × Int) × State) :=
  match (scheduler_get_next s).1 with
  | none => some (none, main_get_next s)
  | some r =>
    match main_turn env (main_get_next s) r with
    | none => none
    | some s1 => some (some (r, (serve env ((main_get_next s).requests r)).ret), s1)

/-- Passes of the loop one after the other with no connection arriving; the pass
number `k` runs with the results of the calls given by the entry `k` of the list. -/
def passes : List Env → State → Option (List (Option (Nat × Int)) × State)
  | [], s => some ([], s)
  | env :: envs, s =>
    match main_pass env s with
    | none => none
    | some (x, s1) =>
      match passes envs s1 with
      | none => none
      | some (l, s2) => some (x :: l, s2)

/-- The records `scheduler_get_next` returned in the passes, in order. -/
def returned (l : List (Option (Nat × Int))) : List (Option Nat) :=
  l.map (Option.map Prod.fst)

/-- The active records: those in the ready queue and the one the driver holds. -/
def active (s : State) : List Nat := s.ready ++ held s

/-- A state with an empty ready queue in which every record of the table describes a
transfer with 100000 bytes left. -/
def rotating : State :=
  { main_init with requests := fun i => fresh (i + 1) (i + 5) i 100000 }

/-- The invariant of the driver.  Some list `fl` is the free list, from `free_rcb`
along `next` to the null pointer; the free list, the ready queue and the record held
by the driver together hold each of the `MAX_REQS` records of the table once; the
sequence numbers of the active records are pairwise different and below
`next_req`. -/
def Inv (s : State) : Prop :=
  ∃ fl, isChain s.requests s.free_rcb fl
    ∧ (fl ++ s.ready ++ held s).Perm (List.range MAX_REQS)
    ∧ (∀ j ∈ active s, (s.requests j).seq < s.next_req)
    ∧ ((active s).map fun j => (s.requests j).seq).Nodup

/-! ## A run of the driver: a file of 5000 bytes, then a file of 20000 bytes -/

/-- The connection 5 asks for the file 7 of 5000 bytes: `serve_client` has returned
the record 0. -/
def runA1 : State :=
  ⟨Function.update main_init.requests 0 (fresh 1 5 7 5000), some 1, 2, [], [], PC.admitted 0⟩

/-- The record 0 has been submitted. -/
def runA2 : State :=
  ⟨Function.update main_init.requests 0 ⟨1, 5, some 7, 5000, 8192, 0, none⟩,
    some 1, 2, [0], [], PC.idle⟩

/-- The connection 6 asks for the file 8 of 20000 bytes: `serve_client` has returned
the record 1. -/
def runB1 : State :=
  ⟨Function.update runA2.requests 1 (fresh 2 6 8 20000), some 2, 3, [0], [], PC.admitted 1⟩

/-- The record 1 has been submitted: both requests wait for their first turn. -/
def runB2 : State :=
  ⟨Function.update runA2.requests 1 ⟨2, 6, some 8, 20000, 8192, 0, none⟩,
    some 2, 3, [0, 1], [], PC.idle⟩

/-- The driver has called `scheduler_get_next` and holds the record 0. -/
def runB3 : State :=
  ⟨runB2.requests, some 2, 3, [1], [], PC.running 0⟩

/-- The first turn, of the record 0, sent the 5000 bytes: the record 0 is back at the
head of the free list and its handles are closed. -/
def runB4 : State :=
  ⟨Function.update runB2.requests 0 ⟨1, 5, some 7, 0, 8192, 5000, some 2⟩, some 0, 3, [1],
    [Action.fclose (some 7), Action.close 5, Action.printf 1], PC.idle⟩

/-- The state after `k` connections, each asking on the connection 5 for the file 7
of 100000 bytes, each admitted and submitted: the records `0` to `k - 1` wait in the
ready queue, the free list starts at the record `k`, and is empty when `k` is 64. -/
def crowded (k : Nat) : State where
  requests := fun i =>
    if i < k then { fresh (i + 1) 5 7 100000 with max := QUANTUM } else main_init.requests i
  free_rcb := if k < MAX_REQS then some k else none
  next_req := k + 1
  ready := List.range k
  out := []
  pc := PC.idle

/-! ## The turns of one request, each with its own results of reads and writes -/

/-- The record of a request as it waits for its turn number `i + 1`, as `waiting`, when
turn number `j + 1` runs with the results `envs j`. -/
def waitingWith (envs : Nat → Env) (r : rcb) : Nat → rcb
  | 0 => { r with max := QUANTUM }
  | i + 1 => { (serve (envs i) (waitingWith envs r i)).req with max := QUANTUM }

/-- A state in which the driver holds the record 0 of a request for an empty file:
the file 7 of 0 bytes asked on the connection 5, admitted and submitted. -/
def emptyFile : State :=
  ⟨Function.update main_init.requests 0 ⟨1, 5, some 7, 0, 8192, 0, none⟩, some 1, 2, [], [],
    PC.running 0⟩

/-! ## Counting the calls of a turn -/

/-- The value of the `int` local `len` a call was given as its count. -/
def Event.asked : Event → Int
  | Event.fread asked _ => asked
  | Event.write asked _ => asked

/-- The number of bytes a call is asked to transfer: the count of `fread` and of
`write` is a `size_t`, which the `int` given is converted to (lines 136 and 141). -/
def Event.count (e : Event) : Int := toSize e.asked

/-- The number of calls of `fread` in a trace: the iterations of the loop of `serve`
that were started. -/
def reads : List Event → Nat
  | [] => 0
  | Event.fread _ _ :: tr => reads tr + 1
  | Event.write _ _ :: tr => reads tr

/-- The number of calls of `write` in a trace. -/
def writes : List Event → Nat
  | [] => 0
  | Event.fread _ _ :: tr => writes tr
  | Event.write _ _ :: tr => writes tr + 1

/-- Bytes taken from the file by the calls in a trace, by which its offset moves: the
sum of the positive results of `fread`. -/
def bytesRead : List Event → Int
  | [] => 0
  | Event.fread _ got :: tr => (if got > 0 then got else 0) + bytesRead tr
  | Event.write _ _ :: tr => bytesRead tr

/-- Reads that return what is asked and writes that send 8000 bytes: a short write
of a chunk of 8192 bytes. -/
def shortWrite : Env := ⟨fun _ a => a, fun _ _ => 8000⟩

/-! ## The order of the calls of `main` -/

theorem serve_loop_read_fail (env : Env) (k : Nat) (n : Int) (req : rcb)
    (h1 : env.fread k (chunk n) < 1) :
    serve_loop env k n req = ⟨0, req, [Event.fread (chunk n) (env.fread k (chunk n))], true⟩ := by
  rw [serve_loop]; dsimp only; rw [dif_pos h1]

theorem serve_loop_write_fail (env : Env) (k : Nat) (n : Int) (req : rcb)
    (h1 : ¬ env.fread k (chunk n) < 1) (h2 : env.write k (env.fread k (chunk n)) < 1) :
    serve_loop env k n req = ⟨0, req, [Event.fread (chunk n) (env.fread k (chunk n)),
      Event.write (env.fread k (chunk n)) (env.write k (env.fread k (chunk n)))], true⟩ := by
  rw [serve_loop]; dsimp only; rw [dif_neg h1, dif_pos h2]

theorem serve_loop_again (env : Env) (k : Nat) (n : Int) (req : rcb)
    (h1 : ¬ env.fread k (chunk n) < 1) (h2 : ¬ env.write k (env.fread k (chunk n)) < 1)
    (h3 : n - env.write k (env.fread k (chunk n)) > 0
      ∧ env.write k (env.fread k (chunk n)) = MAX_HTTP_SIZE) :
    serve_loop env k n req =
      { serve_loop env (k + 1) (n - env.write k (env.fread k (chunk n)))
          { req with left := req.left - env.write k (env.fread k (chunk n)) } with
        trace := Event.fread (chunk n) (env.fread k (chunk n))
          :: Event.write (env.fread k (chunk n)) (env.write k (env.fread k (chunk n)))
          :: (serve_loop env (k + 1) (n - env.write k (env.fread k (chunk n)))
            { req with left := req.left - env.write k (env.fread k (chunk n)) }).trace } := by
  rw [serve_loop]; dsimp only; rw [dif_neg h1, dif_neg h2, dif_pos h3]

theorem serve_loop_exit (env : Env) (k : Nat) (n : Int) (req : rcb)
    (h1 : ¬ env.fread k (chunk n) < 1) (h2 : ¬ env.write k (env.fread k (chunk n)) < 1)
    (h3 : ¬ (n - env.write k (env.fread k (chunk n)) > 0
      ∧ env.write k (env.fread k (chunk n)) = MAX_HTTP_SIZE)) :
    serve_loop env k n req =
      ⟨if req.left - env.write k (env.fread k (chunk n)) > 0 then 1 else 0,
        { req with left := req.left - env.write k (env.fread k (chunk n)) },
        [Event.fread (chunk n) (env.fread k (chunk n)),
          Event.write (env.fread k (chunk n)) (env.write k (env.fread k (chunk n)))], false⟩ := by
  rw [serve_loop]; dsimp only; rw [dif_neg h1, dif_neg h2, dif_neg h3]

theorem chunk_le (n : Int) : chunk n ≤ n ∧ chunk n ≤ MAX_HTTP_SIZE := by
  unfold chunk; split <;> omega

/-- Induction along the iterations of the loop of `serve`. -/
theorem serve_loop_cases (env : Env) (P : Nat → Int → rcb → Turn → Prop)
    (hread : ∀ k n req, env.fread k (chunk n) < 1 →
      P k n req ⟨0, req, [Event.fread (chunk n) (env.fread k (chunk n))], true⟩)
    (hwrite : ∀ k n req, ¬ env.fread k (chunk n) < 1 →
      env.write k (env.fread k (chunk n)) < 1 →
      P k n req ⟨0, req, [Event.fread (chunk n) (env.fread k (chunk n)),
        Event.write (env.fread k (chunk n)) (env.write k (env.fread k (chunk n)))], true⟩)
    (hagain : ∀ k n req (t : Turn), ¬ env.fread k (chunk n) < 1 →
      ¬ env.write k (env.fread k (chunk n)) < 1 →
      n - env.write k (env.fread k (chunk n)) > 0 →
      env.write k (env.fread k (chunk n)) = MAX_HTTP_SIZE →
      P (k + 1) (n - env.write k (env.fread k (chunk n)))
        { req with left := req.left - env.write k (env.fread k (chunk n)) } t →
      P k n req { t with trace := (Event.fread (chunk n) (env.fread k (chunk n))
        :: Event.write (env.fread k (chunk n)) (env.write k (env.fread k (chunk n)))
        :: t.trace) })
    (hexit : ∀ k n req, ¬ env.fread k (chunk n) < 1 →
      ¬ env.write k (env.fread k (chunk n)) < 1 →
      ¬ (n - env.write k (env.fread k (chunk n)) > 0
        ∧ env.write k (env.fread k (chunk n)) = MAX_HTTP_SIZE) →
      P k n req ⟨if req.left - env.write k (env.fread k (chunk n)) > 0 then 1 else 0,
        { req with left := req.left - env.write k (env.fread k (chunk n)) },
        [Event.fread (chunk n) (env.fread k (chunk n)),
          Event.write (env.fread k (chunk n)) (env.write k (env.fread k (chunk n)))], false⟩) :
    ∀ k n req, P k n req (serve_loop env k n req) := by
  have key : ∀ (m : Nat) k n req, n.toNat ≤ m → P k n req (serve_loop env k n req) := by
    intro m
    induction m with
    | zero =>
      intro k n req hm
      by_cases h1 : env.fread k (chunk n) < 1
      · rw [serve_loop_read_fail env k n req h1]; exact hread k n req h1
      · by_cases h2 : env.write k (env.fread k (chunk n)) < 1
        · rw [serve_loop_write_fail env k n req h1 h2]; exact hwrite k n req h1 h2
        · by_cases h3 : n - env.write k (env.fread k (chunk n)) > 0
              ∧ env.write k (env.fread k (chunk n)) = MAX_HTTP_SIZE
          · exfalso; omega
          · rw [serve_loop_exit env k n req h1 h2 h3]; exact hexit k n req h1 h2 h3
    | succ m ih =>
      intro k n req hm
      by_cases h1 : env.fread k (chunk n) < 1
      · rw [serve_loop_read_fail env k n req h1]; exact hread k n req h1
      · by_cases h2 : env.write k (env.fread k (chunk n)) < 1
        · rw [serve_loop_write_fail env k n req h1 h2]; exact hwrite k n req h1 h2
        · by_cases h3 : n - env.write k (env.fread k (chunk n)) > 0
              ∧ env.write k (env.fread k (chunk n)) = MAX_HTTP_SIZE
          · rw [serve_loop_again env k n req h1 h2 h3]
            exact hagain k n req _ h1 h2 h3.1 h3.2 (ih _ _ _ (by omega))
          · rw [serve_loop_exit env k n req h1 h2 h3]; exact hexit k n req h1 h2 h3
  intro k n req
  exact key n.toNat k n req (le_refl _)

/-- The loop subtracts from `left` exactly the bytes written and touches no other
field of the record. -/
theorem serve_loop_req (env : Env) (k : Nat) (n : Int) (req : rcb) :
    (serve_loop env k n req).req
      = { req with left := req.left - bytesWritten (serve_loop env k n req).trace } := by
  refine serve_loop_cases env
    (fun _ _ req t => t.req = { req with left := req.left - bytesWritten t.trace }) ?_ ?_ ?_ ?_ k n req
  · intro k n req _; simp [bytesWritten]
  · intro k n req _ h2
    have : ¬ (0 < env.write k (env.fread k (chunk n))) := by omega
    simp [bytesWritten, this]
  · intro k n req t h1 h2 h3 _ ih
    have hpos : 0 < env.write k (env.fread k (chunk n)) := by omega
    simp only [bytesWritten, gt_iff_lt, hpos, if_true]
    simp only at ih
    rw [ih]
    simp only [rcb.mk.injEq, true_and, and_true]
    omega
  · intro k n req h1 h2 _
    have hpos : 0 < env.write k (env.fread k (chunk n)) := by omega
    simp [bytesWritten, hpos]

/-- The value the loop returns: `0` after a failed call, else `left > 0`. -/
theorem serve_loop_ret (env : Env) (k : Nat) (n : Int) (req : rcb) :
    (serve_loop env k n req).ret
      = if (serve_loop env k n req).failed then 0
        else if (serve_loop env k n req).req.left > 0 then 1 else 0 := by
  refine serve_loop_cases env
    (fun _ _ _ t => t.ret = if t.failed then 0 else if t.req.left > 0 then 1 else 0)
    ?_ ?_ ?_ ?_ k n req
  · intro k n req _; simp
  · intro k n req _ _; simp
  · intro k n req t _ _ _ _ ih; exact ih
  · intro k n req _ _ _; simp

/-! ## One call of `serve` -/

/-- A call of `serve` on a record with nothing left makes no call and changes
nothing. -/
theorem serve_zero (env : Env) (req : rcb) (h : req.left = 0) :
    serve env req = ⟨0, req, [], false⟩ := by
  simp [serve, h]

/-- The amount `serve` sets out to send (lines 126-131). -/
theorem serve_pos (env : Env) (req : rcb) (h : req.left ≠ 0) :
    serve env req = serve_loop env 0
      (if req.max ≠ 0 ∧ req.max < req.left then req.max else req.left)
      { req with last := if req.max ≠ 0 ∧ req.max < req.left then req.max else req.left } := by
  simp [serve, h]

/-- One turn with full reads and writes on a record stamped with the quantum. -/
theorem serve_full_rr (req : rcb) (hq : req.max = QUANTUM) (hl : 0 < req.left) :
    serve full req =
      ⟨if req.left - min req.left 8192 > 0 then 1 else 0,
        { req with last := min req.left 8192, left := req.left - min req.left 8192 },
        [Event.fread (min req.left 8192) (min req.left 8192),
          Event.write (min req.left 8192) (min req.left 8192)], false⟩ := by
  have hn : (if req.max ≠ 0 ∧ req.max < req.left then req.max else req.left)
      = min req.left 8192 := by
    rw [hq]; unfold QUANTUM; split_ifs <;> omega
  have hc : chunk (min req.left 8192) = min req.left 8192 := by
    unfold chunk MAX_HTTP_SIZE; split_ifs <;> omega
  rw [serve_pos full req (by omega), hn]
  have h1 : ¬ full.fread 0 (chunk (min req.left 8192)) < 1 := by
    simp only [full, hc]; omega
  have h2 : ¬ full.write 0 (full.fread 0 (chunk (min req.left 8192))) < 1 := by
    simp only [full, hc]; omega
  have h3 : ¬ (min req.left 8192 - full.write 0 (full.fread 0 (chunk (min req.left 8192))) > 0
      ∧ full.write 0 (full.fread 0 (chunk (min req.left 8192))) = MAX_HTTP_SIZE) := by
    simp only [full, hc]; omega
  rw [serve_loop_exit full 0 _ _ h1 h2 h3]
  simp only [full, hc]

/-- Every record waiting for a turn carries the quantum. -/
theorem waiting_max (env : Env) (r : rcb) (i : Nat) : (waiting env r i).max = QUANTUM := by
  cases i <;> rfl

/-- What is left of a file of `S` bytes after `i` turns of full reads and writes. -/
theorem waiting_full_left (r : rcb) (S : Nat) (hS : r.left = S) (i : Nat) :
    (waiting full r i).left = max ((S : Int) - 8192 * i) 0 := by
  induction i with
  | zero => simp [waiting, hS]
  | succ i ih =>
    have hq := waiting_max full r i
    show (serve full (waiting full r i)).req.left = _
    by_cases h0 : (waiting full r i).left = 0
    · rw [serve_zero full _ h0]
      show (waiting full r i).left = _
      rw [h0]; rw [h0] at ih; push_cast; omega
    · have hpos : 0 < (waiting full r i).left := by omega
      rw [serve_full_rr _ hq hpos]
      show (waiting full r i).left - min (waiting full r i).left 8192 = _
      rw [ih]; push_cast; omega

/-- Turn `i + 1` of a file of `S` bytes with full reads and writes, while bytes are
left: it asks for and sends `min 8192 (S - 8192 * i)` bytes. -/
theorem nthTurn_full (r : rcb) (S : Nat) (hS : r.left = S) (i : Nat) (hi : 8192 * i < S) :
    nthTurn full r i =
      ⟨if (S : Int) - 8192 * (i + 1) > 0 then 1 else 0,
        { waiting full r i with last := min 8192 ((S : Int) - 8192 * i),
                                left := max ((S : Int) - 8192 * (i + 1)) 0 },
        [Event.fread (min 8192 ((S : Int) - 8192 * i)) (min 8192 ((S : Int) - 8192 * i)),
          Event.write (min 8192 ((S : Int) - 8192 * i)) (min 8192 ((S : Int) - 8192 * i))],
        false⟩ := by
  have hq := waiting_max full r i
  have hl := waiting_full_left r S hS i
  have hpos : 0 < (waiting full r i).left := by rw [hl]; omega
  have hm : min (waiting full r i).left 8192 = min 8192 ((S : Int) - 8192 * i) := by
    rw [hl]; omega
  have hd : (waiting full r i).left - min (waiting full r i).left 8192
      = max ((S : Int) - 8192 * (i + 1)) 0 := by
    rw [hl]; omega
  unfold nthTurn
  rw [serve_full_rr _ hq hpos, hd, hm]
  have : (max ((S : Int) - 8192 * (i + 1)) 0 > 0) ↔ ((S : Int) - 8192 * (i + 1) > 0) := by
    omega
  simp only [this]

/-! ## The two ways a turn of the driver ends -/

/-- When `serve` returns `0` the driver releases the record. -/
theorem main_turn_release (env : Env) (s : State) (r : Nat)
    (h : (serve env (s.requests r)).ret = 0) :
    main_turn env s r = some (main_release
      { s with requests := Function.update s.requests r (serve env (s.requests r)).req } r) := by
  unfold main_turn
  simp only [h, ne_eq, not_true_eq_false, if_false]

/-- When `serve` returns non-zero the driver submits the record again. -/
theorem main_turn_submit (env : Env) (s : State) (r : Nat)
    (h : (serve env (s.requests r)).ret ≠ 0) :
    main_turn env s r = some
      { s with
        requests := Function.update s.requests r
          { (serve env (s.requests r)).req with max := QUANTUM }
        ready := s.ready ++ [r]
        pc := PC.idle } := by
  unfold main_turn
  simp [h, scheduler_submit, rr_scheduler, submit, queue_enqueue]

/-! ## The claims on one turn and on the turns of one request -/

/-- C3, completion in `ceil(S / 8192)` turns, for a size an `int` holds.  For a
request admitted with a file of `S` bytes, `S` below `2^31`, the record `r` holding
in `left` what `serve_client` stored of the size, under round robin and with full
reads and writes: `left` is `0` after `i` turns exactly when `i` is at least
`ceil(S / 8192)`; every earlier turn returns `1` (to be continued) with bytes left;
the turn number `ceil(S / 8192)` returns `0` without a failure and leaves
`left = 0`.  In the driver: `submit` of the record as admitted gives the record
waiting for turn 1; a turn before the last ends with the record, as it waits for the
next turn, appended to the ready queue; on the last turn the driver releases the
record: it becomes the head of the free list and is not put back in the ready
queue. -/
theorem completion_turns (r : rcb) (S : Nat) (hlt : S < 2147483648)
    (hr : r.left = toInt S) :
    (∀ i, (waiting full r i).left = 0 ↔ (S + 8191) / 8192 ≤ i)
    ∧ (∀ i, i + 1 < (S + 8191) / 8192 →
        (nthTurn full r i).ret = 1 ∧ 0 < (nthTurn full r i).req.left)
    ∧ (∀ i, i + 1 = (S + 8191) / 8192 →
        (nthTurn full r i).ret = 0 ∧ (nthTurn full r i).failed = false
          ∧ (nthTurn full r i).req.left = 0)
    ∧ (∀ (s : State) (p : Nat), s.requests p = r →
        ∃ s1, submit s (some p) = some s1 ∧ s1.requests p = waiting full r 0)
    ∧ (∀ (s : State) (p i : Nat), s.requests p = waiting full r i →
        i + 1 < (S + 8191) / 8192 →
        ∃ s1, main_turn full s p = some s1 ∧ s1.requests p = waiting full r (i + 1)
          ∧ s1.ready = s.ready ++ [p] ∧ s1.free_rcb = s.free_rcb ∧ s1.pc = PC.idle)
    ∧ (∀ (s : State) (p i : Nat), s.requests p = waiting full r i →
        i + 1 = (S + 8191) / 8192 →
        ∃ s1, main_turn full s p = some s1 ∧ s1.free_rcb = some p ∧ s1.ready = s.ready
          ∧ (s1.requests p).left = 0 ∧ s1.pc = PC.idle) := by
  have hS : r.left = S := by rw [hr]; unfold toInt; omega
  have last : ∀ i, i + 1 = (S + 8191) / 8192 →
      (nthTurn full r i).ret = 0 ∧ (nthTurn full r i).failed = false
        ∧ (nthTurn full r i).req.left = 0 := by
    intro i hi
    have h1 : 8192 * i < S := by omega
    rw [nthTurn_full r S hS i h1]
    have h2 : ¬ ((S : Int) - 8192 * (i + 1) > 0) := by omega
    simp only [h2, if_false, true_and]
    omega
  have early : ∀ i, i + 1 < (S + 8191) / 8192 →
      (nthTurn full r i).ret = 1 ∧ 0 < (nthTurn full r i).req.left := by
    intro i hi
    have h1 : 8192 * i < S := by omega
    rw [nthTurn_full r S hS i h1]
    have h2 : (S : Int) - 8192 * (i + 1) > 0 := by omega
    simp only [h2, if_true, true_and]
    omega
  refine ⟨?_, early, last, ?_, ?_, ?_⟩
  · intro i
    rw [waiting_full_left r S hS i]
    omega
  · intro s p hp
    refine ⟨_, rfl, ?_⟩
    simp [hp, waiting]
  · intro s p i hp hi
    have ht : serve full (s.requests p) = nthTurn full r i := by rw [hp]; rfl
    refine ⟨_, main_turn_submit full s p (by rw [ht, (early i hi).1]; decide), ?_, rfl, rfl,
      rfl⟩
    simp [ht, waiting, nthTurn]
  · intro s p i hp hi
    obtain ⟨h1, _, h3⟩ := last i hi
    have ht : serve full (s.requests p) = nthTurn full r i := by rw [hp]; rfl
    refine ⟨_, main_turn_release full s p (by rw [ht]; exact h1), ?_⟩
    simp [main_release, ht, h3]

/-- C3 for a file of 20000 bytes: three turns, the first two return `1`, the third
returns `0` and leaves nothing. -/
theorem completion_turns_witness :
    (∀ i, (waiting full (fresh 1 5 7 20000) i).left = 0 ↔ 3 ≤ i)
    ∧ (nthTurn full (fresh 1 5 7 20000) 0).ret = 1
    ∧ (nthTurn full (fresh 1 5 7 20000) 1).ret = 1
    ∧ (nthTurn full (fresh 1 5 7 20000) 2).ret = 0
    ∧ (nthTurn full (fresh 1 5 7 20000) 2).req.left = 0 :=
  have h := completion_turns (fresh 1 5 7 20000) 20000 (by decide) rfl
  ⟨h.1, (h.2.1 0 (by decide)).1, (h.2.1 1 (by decide)).1, (h.2.2.1 2 (by decide)).1,
    (h.2.2.1 2 (by decide)).2.2⟩

/-- C3 fails as stated at a file of `2^32` bytes: `serve_client` leaves `left = 0` in
the record, so `left` is `0` before any turn, and the first turn returns `0` at once
with nothing read and nothing sent, where `ceil(S / 8192)` is 524288 turns. -/
theorem completion_turns_counterexample :
    (fresh 1 5 7 4294967296).left = 0
      ∧ (waiting full (fresh 1 5 7 4294967296) 0).left = 0
      ∧ (nthTurn full (fresh 1 5 7 4294967296) 0).ret = 0
      ∧ (nthTurn full (fresh 1 5 7 4294967296) 0).trace = []
      ∧ (4294967296 + 8191) / 8192 = 524288
      ∧ ¬ (∀ i, (waiting full (fresh 1 5 7 4294967296) i).left = 0
            ↔ (4294967296 + 8191) / 8192 ≤ i) := by
  have h0 : (waiting full (fresh 1 5 7 4294967296) 0).left = 0 := rfl
  refine ⟨rfl, h0, ?_, ?_, by decide, ?_⟩
  · show (serve full (waiting full (fresh 1 5 7 4294967296) 0)).ret = 0
    rw [serve_zero full _ h0]
  · show (serve full (waiting full (fresh 1 5 7 4294967296) 0)).trace = []
    rw [serve_zero full _ h0]
  · intro h
    have := (h 0).1 h0
    omega

/-- C4, per-turn sizes, for a size an `int` holds.  For a request admitted with a
file of `S` bytes, `S` below `2^31`, the record `r` holding in `left` what
`serve_client` stored of the size, under round robin and with full reads and writes,
the size recorded in `last` by turn `i + 1` and the bytes sent in that turn are both
`min(8192, S - 8192 * i)`, for each of the `ceil(S / 8192)` turns; so the sizes
recorded are `8192`, `floor(S / 8192)` times, followed by `S mod 8192` when that is
not zero. -/
theorem turn_sizes (r : rcb) (S : Nat) (hlt : S < 2147483648) (hr : r.left = toInt S) :
    (∀ i, i < (S + 8191) / 8192 →
        (nthTurn full r i).req.last = min 8192 ((S : Int) - 8192 * i)
          ∧ bytesWritten (nthTurn full r i).trace = min 8192 ((S : Int) - 8192 * i))
    ∧ (List.range ((S + 8191) / 8192)).map (fun i => (nthTurn full r i).req.last)
        = List.replicate (S / 8192) (8192 : Int)
          ++ (if S % 8192 = 0 then [] else [((S % 8192 : Nat) : Int)]) := by
  have hS : r.left = S := by rw [hr]; unfold toInt; omega
  have size : ∀ i, i < (S + 8191) / 8192 →
      (nthTurn full r i).req.last = min 8192 ((S : Int) - 8192 * i)
        ∧ bytesWritten (nthTurn full r i).trace = min 8192 ((S : Int) - 8192 * i) := by
    intro i hi
    have h1 : 8192 * i < S := by omega
    rw [nthTurn_full r S hS i h1]
    have h2 : (min 8192 ((S : Int) - 8192 * i) > 0) := by omega
    simp only [bytesWritten, h2, if_true, true_and]
    omega
  refine ⟨size, ?_⟩
  apply List.ext_getElem?
  intro i
  by_cases hi : i < (S + 8191) / 8192
  · rw [List.getElem?_map, List.getElem?_range hi, Option.map_some', (size i hi).1]
    by_cases hlt : i < S / 8192
    · rw [List.getElem?_append_left (by simpa using hlt)]
      rw [List.getElem?_replicate]
      simp only [hlt, if_true, Option.some.injEq]
      omega
    · have hm : ¬ (S % 8192 = 0) := by omega
      have hi2 : i = S / 8192 := by omega
      rw [List.getElem?_append_right (by simp; omega)]
      simp only [hm, if_false, List.length_replicate, hi2, Nat.sub_self, List.getElem?_cons_zero,
        Option.some.injEq]
      omega
  · rw [List.getElem?_eq_none (by simp; omega), List.getElem?_eq_none]
    simp only [List.length_append, List.length_replicate]
    split_ifs <;> simp <;> omega

/-- C4 for a file of 20000 bytes: the turns record and send 8192, 8192 and 3616
bytes. -/
theorem turn_sizes_witness :
    (List.range 3).map (fun i => (nthTurn full (fresh 1 5 7 20000) i).req.last)
        = [8192, 8192, 3616]
    ∧ bytesWritten (nthTurn full (fresh 1 5 7 20000) 2).trace = 3616 :=
  ⟨(turn_sizes (fresh 1 5 7 20000) 20000 (by decide) rfl).2,
    by simpa using ((turn_sizes (fresh 1 5 7 20000) 20000 (by decide) rfl).1 2 (by decide)).2⟩

/-- C4 fails as stated at a file of `2^32` bytes: the first turn returns before
`last` is written and sends nothing, where the claim has 8192 bytes recorded and
sent. -/
theorem turn_sizes_counterexample :
    (nthTurn full (fresh 1 5 7 4294967296) 0).req.last = 0
      ∧ bytesWritten (nthTurn full (fresh 1 5 7 4294967296) 0).trace = 0
      ∧ min (8192 : Int) (4294967296 - 8192 * 0) = 8192
      ∧ ¬ ((nthTurn full (fresh 1 5 7 4294967296) 0).req.last
              = min 8192 (4294967296 - 8192 * 0)
            ∧ bytesWritten (nthTurn full (fresh 1 5 7 4294967296) 0).trace
              = min 8192 (4294967296 - 8192 * 0)) := by
  have h0 : (waiting full (fresh 1 5 7 4294967296) 0).left = 0 := rfl
  have ht : nthTurn full (fresh 1 5 7 4294967296) 0
      = ⟨0, waiting full (fresh 1 5 7 4294967296) 0, [], false⟩ :=
    serve_zero full _ h0
  have hl : (waiting full (fresh 1 5 7 4294967296) 0).last = 0 := rfl
  rw [ht]
  refine ⟨hl, rfl, by decide, ?_⟩
  rintro ⟨h, _⟩
  rw [hl] at h
  omega

/-! ## The round-robin scheduler -/

/-- C5, round-robin submit.  For every record `r` of the table and every prior value
of its quantum, `submit` succeeds, leaves `max = 8192` in the record and every other
field of it as it was, leaves every other record as it was, and turns the ready
queue `q` into `q ++ [r]`; nothing else of the state changes. -/
theorem submit_spec (s : State) (r : Nat) :
    ∃ s1, submit s (some r) = some s1
      ∧ (s1.requests r).max = 8192
      ∧ s1.requests r = { s.requests r with max := 8192 }
      ∧ (∀ j, j ≠ r → s1.requests j = s.requests j)
      ∧ s1.ready = s.ready ++ [r]
      ∧ s1.free_rcb = s.free_rcb ∧ s1.next_req = s.next_req ∧ s1.out = s.out
      ∧ s1.pc = s.pc := by
  refine ⟨_, rfl, ?_, ?_, ?_, rfl, rfl, rfl, rfl, rfl⟩
  · simp [QUANTUM]
  · simp [QUANTUM]
  · intro j hj
    simp [Function.update_noteq hj]

/-- C6, round-robin get_next.  On a ready queue `r :: q` it returns `r` and leaves
the queue `q`; on the empty queue it returns the null pointer and leaves the queue
empty; in both cases the table of records and the rest of the state are as they
were. -/
theorem get_next_spec (s : State) :
    (∀ r q, s.ready = r :: q → (get_next s).1 = some r ∧ (get_next s).2.ready = q)
    ∧ (s.ready = [] → (get_next s).1 = none ∧ (get_next s).2.ready = [])
    ∧ (get_next s).2.requests = s.requests
    ∧ (get_next s).2.free_rcb = s.free_rcb ∧ (get_next s).2.next_req = s.next_req
    ∧ (get_next s).2.out = s.out ∧ (get_next s).2.pc = s.pc := by
  refine ⟨?_, ?_, rfl, rfl, rfl, rfl, rfl⟩
  · intro r q h
    simp [get_next, queue_dequeue, h]
  · intro h
    simp [get_next, queue_dequeue, h]

/-- C6 on the queue holding the records 4, 9 and 2 in that order. -/
theorem get_next_spec_witness :
    (get_next { main_init with ready := [4, 9, 2] }).1 = some 4
      ∧ (get_next { main_init with ready := [4, 9, 2] }).2.ready = [9, 2] :=
  (get_next_spec { main_init with ready := [4, 9, 2] }).1 4 [9, 2] rfl

/-- Submitting a list of records appends it to the ready queue. -/
theorem submitAll_ready (rs : List Nat) : ∀ (s s1 : State), submitAll s rs = some s1 →
    s1.ready = s.ready ++ rs := by
  induction rs with
  | nil => intro s s1 h; simp [submitAll] at h; simp [← h]
  | cons r rs ih =>
    intro s s1 h
    simp only [submitAll, submit] at h
    have := ih _ _ h
    simpa [queue_enqueue] using this

/-- A pass whose turn ends with `serve` returning non-zero takes the head of the
ready queue and puts it back at the tail. -/
theorem main_pass_resubmit (env : Env) (s s1 : State) (x : Option (Nat × Int))
    (h : main_pass env s = some (x, s1)) (hx : ∃ r v, x = some (r, v) ∧ v ≠ 0) :
    returned [x] = [s.ready.head?] ∧ s1.ready = s.ready.rotate 1 := by
  obtain ⟨r, v, rfl, hv⟩ := hx
  unfold main_pass at h
  cases hq : s.ready with
  | nil =>
    simp [scheduler_get_next, rr_scheduler, get_next, queue_dequeue, hq] at h
  | cons a q =>
    have hg : (scheduler_get_next s).1 = some a := by
      simp [scheduler_get_next, rr_scheduler, get_next, queue_dequeue, hq]
    have hm : main_get_next s = { s with ready := q, pc := PC.running a } := by
      simp [main_get_next, scheduler_get_next, rr_scheduler, get_next, queue_dequeue, hq]
    rw [hg] at h
    simp only [hm] at h
    cases ht : main_turn env { s with ready := q, pc := PC.running a } a with
    | none => simp [ht] at h
    | some s2 =>
      simp only [ht, Option.some.injEq, Prod.mk.injEq] at h
      obtain ⟨⟨hra, hva⟩, hs⟩ := h
      subst hs
      have hne : (serve env (({ s with ready := q, pc := PC.running a } : State).requests a)).ret
          ≠ 0 := by
        show (serve env (s.requests a)).ret ≠ 0
        rw [hva]; exact hv
      rw [main_turn_submit env _ a hne] at ht
      simp only [Option.some.injEq] at ht
      subst ht
      simp [returned, hra, List.rotate_cons_succ]

/-- Counting `some r` in a list of non-null pointers. -/
theorem count_map_some (L : List Nat) (r : Nat) : (L.map some).count (some r) = L.count r := by
  induction L with
  | nil => rfl
  | cons a L ih => simp [List.count_cons, ih]

/-- Passes that all end with a resubmission rotate the ready queue: pass `k` returns
the head of the queue rotated `k` times. -/
theorem passes_rotate (envs : List Env) : ∀ (s s1 : State) (l : List (Option (Nat × Int))),
    passes envs s = some (l, s1) → (∀ x ∈ l, ∃ r v, x = some (r, v) ∧ v ≠ 0) →
    s1.ready = s.ready.rotate envs.length
      ∧ returned l = (List.range envs.length).map (fun k => (s.ready.rotate k).head?) := by
  induction envs with
  | nil =>
    intro s s1 l h _
    simp only [passes, Option.some.injEq, Prod.mk.injEq] at h
    obtain ⟨rfl, rfl⟩ := h
    simp [returned]
  | cons env envs ih =>
    intro s s1 l h hall
    simp only [passes] at h
    cases hp : main_pass env s with
    | none => simp [hp] at h
    | some xs =>
      obtain ⟨x, s2⟩ := xs
      simp only [hp] at h
      cases hr : passes envs s2 with
      | none => simp [hr] at h
      | some ls =>
        obtain ⟨l2, s3⟩ := ls
        simp only [hr, Option.some.injEq, Prod.mk.injEq] at h
        obtain ⟨rfl, rfl⟩ := h
        have h1 := main_pass_resubmit env s s2 x hp (hall x (by simp))
        have h2 := ih s2 s3 l2 hr (fun y hy => hall y (by simp [hy]))
        refine ⟨?_, ?_⟩
        · rw [h2.1, h1.2, List.rotate_rotate, List.length_cons, Nat.add_comm]
        · have hx : returned (x :: l2) = returned [x] ++ returned l2 := by simp [returned]
          rw [hx, h1.1, h2.2, h1.2, List.length_cons, List.range_succ_eq_map]
          simp [List.rotate_rotate, Nat.add_comm, Function.comp_def]

/-- C1, round-robin fairness.  Let the `N >= 1` distinct records `rs` be submitted in
order to an empty ready queue, and let the driver then make passes, each a
`get_next` followed by a turn that ends with a resubmission.  Then pass `k` (counted
from 0) returns the record `rs[k mod N]`, and any `N` passes in a row return the
records of `rs`, each once, in the submission order rotated; the first `N` passes
return `rs` itself. -/
theorem fairness (s0 s s1 : State) (rs : List Nat) (envs : List Env)
    (l : List (Option (Nat × Int)))
    (hq : s0.ready = []) (hN : rs ≠ []) (hd : rs.Nodup)
    (hsub : submitAll s0 rs = some s)
    (hrun : passes envs s = some (l, s1))
    (hres : ∀ x ∈ l, ∃ r v, x = some (r, v) ∧ v ≠ 0) :
    returned l = (List.range envs.length).map (fun k => rs[k % rs.length]?)
      ∧ (∀ j, j + rs.length ≤ envs.length →
          ((returned l).drop j).take rs.length = (rs.rotate j).map some
            ∧ ∀ r ∈ rs, (((returned l).drop j).take rs.length).count (some r) = 1)
      ∧ (rs.length ≤ envs.length → (returned l).take rs.length = rs.map some) := by
  have hready : s.ready = rs := by
    rw [submitAll_ready rs s0 s hsub, hq, List.nil_append]
  have hlen : 0 < rs.length := List.length_pos.mpr hN
  have hrot := (passes_rotate envs s s1 l hrun hres).2
  rw [hready] at hrot
  have hformula : returned l = (List.range envs.length).map (fun k => rs[k % rs.length]?) := by
    rw [hrot]
    apply List.map_congr_left
    intro k _
    rw [← List.rotate_mod, List.head?_rotate (Nat.mod_lt _ hlen)]
  have hwin : ∀ j, j + rs.length ≤ envs.length →
      ((returned l).drop j).take rs.length = (rs.rotate j).map some := by
    intro j hj
    apply List.ext_getElem?
    intro i
    by_cases hi : i < rs.length
    · rw [List.getElem?_take_of_lt hi, List.getElem?_drop, hformula, List.getElem?_map,
        List.getElem?_range (by omega), List.getElem?_map, List.getElem?_rotate hi]
      have hlt : (j + i) % rs.length < rs.length := Nat.mod_lt _ hlen
      simp [Nat.add_comm, List.getElem?_eq_getElem hlt]
    · rw [List.getElem?_eq_none (by simp; omega), List.getElem?_eq_none (by simp; omega)]
  refine ⟨hformula, ?_, ?_⟩
  · intro j hj
    refine ⟨hwin j hj, ?_⟩
    intro r hr
    rw [hwin j hj, count_map_some]
    rw [(List.rotate_perm rs j).count_eq]
    exact List.count_eq_one_of_mem hd hr
  · intro h
    have := hwin 0 (by omega)
    simpa using this

/-- A pass on a non-empty ready queue: the turn of its head. -/
theorem main_pass_cons (env : Env) (s : State) (r : Nat) (q : List Nat) (h : s.ready = r :: q) :
    main_pass env s = some (some (r, (serve env (s.requests r)).ret),
      if (serve env (s.requests r)).ret ≠ 0 then
        { s with
          requests := Function.update s.requests r
            { (serve env (s.requests r)).req with max := QUANTUM }
          ready := q ++ [r]
          pc := PC.idle }
      else
        main_release
          { s with
            requests := Function.update s.requests r (serve env (s.requests r)).req
            ready := q
            pc := PC.running r } r) := by
  have hg : (scheduler_get_next s).1 = some r := by
    simp [scheduler_get_next, rr_scheduler, get_next, queue_dequeue, h]
  have hm : main_get_next s = { s with ready := q, pc := PC.running r } := by
    simp [main_get_next, scheduler_get_next, rr_scheduler, get_next, queue_dequeue, h]
  unfold main_pass
  rw [hg]
  simp only [hm]
  by_cases hv : (serve env (s.requests r)).ret = 0
  · rw [main_turn_release env { s with ready := q, pc := PC.running r } r hv]
    simp [hv]
  · rw [main_turn_submit env { s with ready := q, pc := PC.running r } r hv]
    simp [hv]

/-- A pass on a state written out field by field, for evaluation. -/
theorem main_pass_lit (env : Env) (f : Nat → rcb) (a : Option Nat) (b : Int) (r : Nat)
    (q : List Nat) (o : List Action) (p : PC) :
    main_pass env ⟨f, a, b, r :: q, o, p⟩ = some (some (r, (serve env (f r)).ret),
      if (serve env (f r)).ret ≠ 0 then
        ⟨Function.update f r { (serve env (f r)).req with max := QUANTUM }, a, b, q ++ [r], o,
          PC.idle⟩
      else
        ⟨Function.update f r { (serve env (f r)).req with next := a }, some r, b, q,
          o ++ [Action.fclose (serve env (f r)).req.file,
            Action.close (serve env (f r)).req.client,
            Action.printf (serve env (f r)).req.seq], PC.idle⟩) := by
  rw [main_pass_cons env _ r q rfl]
  simp [main_release]

/-- C1 with three records submitted in the order 0, 1, 2 and four passes of full
reads and writes, every record having 100000 bytes left: the passes return the
records 0, 1, 2, 0. -/
theorem fairness_witness :
    ∃ s l s1, submitAll rotating [0, 1, 2] = some s
      ∧ passes [full, full, full, full] s = some (l, s1)
      ∧ returned l = [some 0, some 1, some 2, some 0] := by
  have hex : ∃ s l s1, submitAll rotating [0, 1, 2] = some s
      ∧ passes [full, full, full, full] s = some (l, s1)
      ∧ l = [some (0, 1), some (1, 1), some (2, 1), some (0, 1)] := by
    simp [submitAll, submit, passes, main_pass_lit, queue_enqueue, serve, serve_loop_read_fail,
      serve_loop_write_fail, serve_loop_again, serve_loop_exit, chunk, full, MAX_HTTP_SIZE,
      rotating, main_init, fresh, toInt, rcb.zero, QUANTUM]
  obtain ⟨s, l, s1, hs, hp, hl⟩ := hex
  have h := fairness rotating s s1 [0, 1, 2] [full, full, full, full] l rfl (by decide)
    (by decide) hs hp (by
      subst hl
      intro x hx
      simp only [List.mem_cons, List.mem_singleton, List.not_mem_nil, or_false] at hx
      rcases hx with rfl | rfl | rfl | rfl <;> exact ⟨_, _, rfl, by decide⟩)
  exact ⟨s, l, s1, hs, hp, h.1⟩

/-! ## The free list -/

/-- Writing a record that is not on a chain leaves the chain as it is. -/
theorem isChain_update (h : Nat → rcb) (r : Nat) (v : rcb) (l : List Nat) :
    ∀ p, isChain h p l → r ∉ l → isChain (Function.update h r v) p l := by
  induction l with
  | nil => intro p hc _; exact hc
  | cons i l ih =>
    intro p hc hr
    have hne : i ≠ r := fun e => hr (by simp [e])
    refine ⟨hc.1, ?_⟩
    rw [Function.update_noteq hne]
    exact ih _ hc.2 (fun hm => hr (List.mem_cons_of_mem _ hm))

/-- Walking a chain with enough fuel lists it. -/
theorem chain_of_isChain (h : Nat → rcb) (l : List Nat) :
    ∀ p fuel, isChain h p l → l.length ≤ fuel → chain h fuel p = l := by
  induction l with
  | nil =>
    intro p fuel hc _
    have hp : p = none := hc
    subst hp
    cases fuel <;> rfl
  | cons i l ih =>
    intro p fuel hc hf
    obtain ⟨hp, hc2⟩ := hc
    subst hp
    cases fuel with
    | zero => simp at hf
    | succ fuel =>
      show i :: chain h fuel (h i).next = i :: l
      rw [ih _ fuel hc2 (by simpa using hf)]

/-- A chain determines its list. -/
theorem isChain_unique (h : Nat → rcb) (l1 : List Nat) :
    ∀ p l2, isChain h p l1 → isChain h p l2 → l1 = l2 := by
  induction l1 with
  | nil =>
    intro p l2 h1 h2
    have hp : p = none := h1
    subst hp
    cases l2 with
    | nil => rfl
    | cons j l2 => exact absurd h2.1 (by simp)
  | cons i l1 ih =>
    intro p l2 h1 h2
    obtain ⟨hp, h1⟩ := h1
    subst hp
    cases l2 with
    | nil => exact absurd (show some i = none from h2) (by simp)
    | cons j l2 =>
      obtain ⟨hj, h2⟩ := h2
      have hij : i = j := by simpa using hj
      subst hij
      rw [ih _ _ h1 h2]

/-- The free list `main` builds runs through the table from the record `i` on. -/
theorem isChain_init_from (n : Nat) : ∀ i, i + (n + 1) = MAX_REQS →
    isChain main_init.requests (some i) (List.range' i (n + 1)) := by
  induction n with
  | zero =>
    intro i hi
    have h63 : i = 63 := by unfold MAX_REQS at hi; omega
    subst h63
    exact ⟨rfl, by simp [isChain, main_init, MAX_REQS, rcb.zero]⟩
  | succ n ih =>
    intro i hi
    have hlt : i < MAX_REQS - 1 := by unfold MAX_REQS at hi ⊢; omega
    refine ⟨rfl, ?_⟩
    have hn : (main_init.requests i).next = some (i + 1) := by
      simp [main_init, hlt]
    rw [hn]
    exact ih (i + 1) (by omega)

/-- The free list `main` builds holds the whole table in order. -/
theorem isChain_init : isChain main_init.requests main_init.free_rcb (List.range MAX_REQS) := by
  rw [List.range_eq_range']
  exact isChain_init_from 63 0 rfl

/-- Under the invariant the records listed from `free_rcb` are the free list of the
invariant. -/
theorem freeList_eq (s : State) (fl : List Nat) (hc : isChain s.requests s.free_rcb fl)
    (hp : (fl ++ s.ready ++ held s).Perm (List.range MAX_REQS)) : freeList s = fl := by
  apply chain_of_isChain _ _ _ _ hc
  have := hp.length_eq
  simp only [List.length_append, List.length_range] at this
  omega

/-- A turn leaves the fields `seq`, `client`, `file`, `max` and `next` of the record
as they were. -/
theorem serve_frame (env : Env) (req : rcb) :
    (serve env req).req.seq = req.seq ∧ (serve env req).req.client = req.client
      ∧ (serve env req).req.file = req.file ∧ (serve env req).req.max = req.max
      ∧ (serve env req).req.next = req.next := by
  by_cases h0 : req.left = 0
  · rw [serve_zero env req h0]; simp
  · rw [serve_pos env req h0, serve_loop_req]; simp

/-! ## The invariant of the driver -/

/-- The invariant holds when `main` enters its loop. -/
theorem Inv_init : Inv main_init := by
  refine ⟨List.range MAX_REQS, isChain_init, ?_, ?_, ?_⟩
  · simp [main_init, held]
  · intro j hj; simp [active, main_init, held] at hj
  · simp [active, main_init, held]

/-- A change of the actions performed and of the place of `main` alone, at a place
where no record is held, keeps the invariant. -/
theorem Inv_out (s : State) (o : List Action) (hpc : s.pc = PC.idle) (hI : Inv s) :
    Inv { s with out := o, pc := PC.idle } := by
  obtain ⟨fl, hc, hp, hs, hn⟩ := hI
  refine ⟨fl, hc, ?_, ?_, ?_⟩
  · simp only [held, hpc] at hp ⊢; exact hp
  · simp only [active, held, hpc] at hs ⊢; exact hs
  · simp only [active, held, hpc] at hn ⊢; exact hn

theorem Inv_dead (s : State) (o : List Action) (hpc : s.pc = PC.idle) (hI : Inv s) :
    Inv { s with out := o, pc := PC.dead } := by
  obtain ⟨fl, hc, hp, hs, hn⟩ := hI
  refine ⟨fl, hc, ?_, ?_, ?_⟩
  · simp only [held, hpc] at hp ⊢; exact hp
  · simp only [active, held, hpc] at hs ⊢; exact hs
  · simp only [active, held, hpc] at hn ⊢; exact hn

/-- Opening a connection and running `serve_client` on it keeps the invariant. -/
theorem Inv_open (s s1 : State) (fd : Int) (rq : Request) (hpc : s.pc = PC.idle)
    (h : main_open s fd rq = some s1) (hI : Inv s) : Inv s1 := by
  unfold main_open at h
  split at h
  · exact absurd h (by simp)
  · cases rq with
    | unreadable =>
      simp [serve_client, hpc] at h; subst h
      exact Inv_out s _ hpc hI
    | bad =>
      simp [serve_client, hpc] at h; subst h
      exact Inv_out s _ hpc hI
    | missing =>
      simp [serve_client] at h; subst h
      exact Inv_dead s _ hpc hI
    | nostat fin =>
      simp [serve_client, hpc] at h; subst h
      exact Inv_out s _ hpc hI
    | file fin size =>
      obtain ⟨fl, hc, hp, hs, hn⟩ := hI
      have hh : held s = [] := by simp [held, hpc]
      cases hf : s.free_rcb with
      | none => simp [serve_client, hf] at h
      | some r =>
        simp only [serve_client, hf, Option.some.injEq] at h
        subst h
        rw [hf] at hc
        cases fl with
        | nil => exact absurd (show some r = none from hc) (by simp)
        | cons i fl =>
          obtain ⟨hi, hc⟩ := hc
          have hir : r = i := by simpa using hi
          subst hir
          have hnd : (r :: fl ++ s.ready ++ held s).Nodup :=
            hp.nodup_iff.mpr (List.nodup_range _)
          rw [hh] at hnd hp
          simp only [List.append_nil, List.cons_append, List.nodup_cons, List.mem_append,
            not_or] at hnd
          obtain ⟨⟨hrfl, hrq⟩, _⟩ := hnd
          have hact : active s = s.ready := by simp [active, hh]
          rw [hact] at hs hn
          have hsame : ∀ j ∈ s.ready,
              Function.update s.requests r (fresh s.next_req fd fin size) j = s.requests j := by
            intro j hj
            exact Function.update_noteq (fun e => hrq (by rw [← e]; exact hj)) _ _
          refine ⟨fl, isChain_update _ _ _ _ _ hc hrfl, ?_, ?_, ?_⟩
          · show (fl ++ s.ready ++ [r]).Perm _
            refine List.Perm.trans ?_ hp
            simp only [List.append_nil, List.cons_append]
            exact (List.perm_append_singleton r (fl ++ s.ready))
          · intro j hj
            simp only [active, held, List.mem_append, List.mem_singleton] at hj
            show (Function.update s.requests r (fresh s.next_req fd fin size) j).seq
              < s.next_req + 1
            rcases hj with hj | hj
            · rw [hsame j hj]; have := hs j hj; omega
            · subst hj; simp [fresh]
          · show ((s.ready ++ [r]).map fun j =>
              (Function.update s.requests r (fresh s.next_req fd fin size) j).seq).Nodup
            rw [List.map_append, List.map_congr_left (fun j hj => by rw [hsame j hj])]
            simp only [List.map_cons, List.map_nil, Function.update_same, fresh]
            rw [List.nodup_append]
            refine ⟨hn, List.nodup_singleton _, ?_⟩
            intro a ha hb
            simp only [List.mem_singleton] at hb
            simp only [List.mem_map] at ha
            obtain ⟨j, hj, hja⟩ := ha
            have := hs j hj
            omega

/-- Putting the record the driver holds at the tail of the ready queue, with its
sequence number kept, keeps the invariant. -/
theorem Inv_requeue (s : State) (r : Nat) (v : rcb) (hh : held s = [r])
    (hv : v.seq = (s.requests r).seq) (hI : Inv s) :
    Inv { s with requests := Function.update s.requests r v, ready := s.ready ++ [r],
                 pc := PC.idle } := by
  obtain ⟨fl, hc, hp, hs, hn⟩ := hI
  have hnd : (fl ++ s.ready ++ held s).Nodup := hp.nodup_iff.mpr (List.nodup_range _)
  rw [hh] at hnd hp
  have hrfl : r ∉ fl := by
    intro hm
    have := List.disjoint_of_nodup_append hnd (List.mem_append_left _ hm) (List.mem_singleton_self r)
    exact this
  have hseq : ∀ j, (Function.update s.requests r v j).seq = (s.requests j).seq := by
    intro j
    by_cases hj : j = r
    · subst hj; simp [hv]
    · rw [Function.update_noteq hj]
  have hact : active s = s.ready ++ [r] := by simp [active, hh]
  rw [hact] at hs hn
  refine ⟨fl, isChain_update _ _ _ _ _ hc hrfl, ?_, ?_, ?_⟩
  · show (fl ++ (s.ready ++ [r]) ++ []).Perm _
    simpa using hp
  · intro j hj
    show (Function.update s.requests r v j).seq < s.next_req
    rw [hseq j]
    exact hs j (by simpa [active, held] using hj)
  · show (((s.ready ++ [r]) ++ []).map fun j => (Function.update s.requests r v j).seq).Nodup
    simp only [hseq, List.append_nil]
    exact hn

/-- Putting the record the driver holds at the head of the free list keeps the
invariant. -/
theorem Inv_free (s : State) (r : Nat) (v : rcb) (o : List Action) (hh : held s = [r])
    (hv : v.next = s.free_rcb) (hI : Inv s) :
    Inv { s with requests := Function.update s.requests r v, free_rcb := some r, out := o,
                 pc := PC.idle } := by
  obtain ⟨fl, hc, hp, hs, hn⟩ := hI
  have hnd : (fl ++ s.ready ++ held s).Nodup := hp.nodup_iff.mpr (List.nodup_range _)
  rw [hh] at hnd hp
  have hrfl : r ∉ fl := by
    intro hm
    exact List.disjoint_of_nodup_append hnd (List.mem_append_left _ hm)
      (List.mem_singleton_self r)
  have hrq : r ∉ s.ready := by
    intro hm
    exact List.disjoint_of_nodup_append hnd (List.mem_append_right _ hm)
      (List.mem_singleton_self r)
  have hsame : ∀ j ∈ s.ready, Function.update s.requests r v j = s.requests j := by
    intro j hj
    exact Function.update_noteq (fun e => hrq (by rw [← e]; exact hj)) _ _
  have hact : active s = s.ready ++ [r] := by simp [active, hh]
  rw [hact] at hs hn
  refine ⟨r :: fl, ⟨rfl, ?_⟩, ?_, ?_, ?_⟩
  · show isChain (Function.update s.requests r v) (Function.update s.requests r v r).next fl
    rw [Function.update_same, hv]
    exact isChain_update _ _ _ _ _ hc hrfl
  · show (r :: fl ++ s.ready ++ []).Perm _
    refine List.Perm.trans ?_ hp
    simp only [List.append_nil, List.cons_append]
    exact (List.perm_append_singleton r (fl ++ s.ready)).symm
  · intro j hj
    have hj2 : j ∈ s.ready := by simpa [active, held] using hj
    show (Function.update s.requests r v j).seq < s.next_req
    rw [hsame j hj2]
    exact hs j (List.mem_append_left _ hj2)
  · show ((s.ready ++ []).map fun j => (Function.update s.requests r v j).seq).Nodup
    rw [List.append_nil, List.map_congr_left (fun j hj => by rw [hsame j hj])]
    rw [List.map_append] at hn
    exact (List.nodup_append.mp hn).1

/-- Submitting the record `serve_client` returned keeps the invariant. -/
theorem Inv_submit (s s1 : State) (r : Nat) (hpc : s.pc = PC.admitted r)
    (h : main_submit s r = some s1) (hI : Inv s) : Inv s1 := by
  simp only [main_submit, scheduler_submit, rr_scheduler, submit, queue_enqueue,
    Option.map_some', Option.some.injEq] at h
  subst h
  exact Inv_requeue s r _ (by simp [held, hpc]) rfl hI

/-- Calling `scheduler_get_next` keeps the invariant. -/
theorem Inv_next (s : State) (hpc : s.pc = PC.idle) (hI : Inv s) : Inv (main_get_next s) := by
  cases hq : s.ready with
  | nil =>
    have hm : main_get_next s = { s with out := s.out, pc := PC.idle } := by
      simp [main_get_next, scheduler_get_next, rr_scheduler, get_next, queue_dequeue, hq]
    rw [hm]
    exact Inv_out s _ hpc hI
  | cons r q =>
    have hm : main_get_next s = { s with ready := q, pc := PC.running r } := by
      simp [main_get_next, scheduler_get_next, rr_scheduler, get_next, queue_dequeue, hq]
    rw [hm]
    obtain ⟨fl, hc, hp, hs, hn⟩ := hI
    simp only [active, held, hpc, hq, List.append_nil] at hp hs hn
    refine ⟨fl, hc, ?_, ?_, ?_⟩
    · show (fl ++ q ++ [r]).Perm _
      refine List.Perm.trans ?_ hp
      rw [List.append_assoc]
      exact List.Perm.append_left fl (List.perm_append_singleton r q)
    · intro j hj
      have hj2 : j ∈ q ++ [r] := hj
      exact hs j (by
        rcases List.mem_append.mp hj2 with hj3 | hj3
        · exact List.mem_cons_of_mem _ hj3
        · rw [List.mem_singleton.mp hj3]; exact List.mem_cons_self _ _)
    · show ((q ++ [r]).map fun j => (s.requests j).seq).Nodup
      exact ((List.perm_append_singleton r q).map _).nodup_iff.mpr hn

/-- A turn of the driver keeps the invariant. -/
theorem Inv_turn (env : Env) (s s1 : State) (r : Nat) (hpc : s.pc = PC.running r)
    (h : main_turn env s r = some s1) (hI : Inv s) : Inv s1 := by
  have hh : held s = [r] := by simp [held, hpc]
  by_cases hv : (serve env (s.requests r)).ret = 0
  · rw [main_turn_release env s r hv, Option.some.injEq] at h
    subst h
    have := Inv_free s r { (serve env (s.requests r)).req with next := s.free_rcb }
      (s.out ++ [Action.fclose (serve env (s.requests r)).req.file,
        Action.close (serve env (s.requests r)).req.client,
        Action.printf (serve env (s.requests r)).req.seq]) hh rfl hI
    simpa [main_release] using this
  · rw [main_turn_submit env s r hv, Option.some.injEq] at h
    subst h
    exact Inv_requeue s r _ hh (serve_frame env (s.requests r)).1 hI

/-- Every step of the driver keeps the invariant. -/
theorem Inv_step (s s1 : State) (h : Step s s1) (hI : Inv s) : Inv s1 := by
  cases h with
  | conn fd rq hpc h => exact Inv_open s s1 fd rq hpc h hI
  | submit r hpc h => exact Inv_submit s s1 r hpc h hI
  | next hpc => exact Inv_next s hpc hI
  | turn env r hpc h => exact Inv_turn env s s1 r hpc h hI

/-- The invariant holds in every state the driver goes through. -/
theorem Inv_reachable (s : State) (h : Reachable s) : Inv s := by
  induction h with
  | refl => exact Inv_init
  | tail _ hstep ih => exact Inv_step _ _ hstep ih

/-! ## The run of the two files -/

/-- The states of the run up to the first turn are states of the driver. -/
theorem runB3_reachable : Reachable runA1 ∧ Reachable runA2 ∧ Reachable runB1
    ∧ Reachable runB2 ∧ Reachable runB3 := by
  have h1 : Reachable runA1 :=
    Relation.ReflTransGen.single (Step.conn 5 (Request.file 7 5000) rfl rfl)
  have h2 : Reachable runA2 := h1.tail (Step.submit 0 rfl (by
    simp [main_submit, scheduler_submit, rr_scheduler, submit, queue_enqueue, runA1, runA2,
      fresh, toInt, rcb.zero, QUANTUM]))
  have h3 : Reachable runB1 := h2.tail (Step.conn 6 (Request.file 8 20000) rfl (by
    simp [main_open, serve_client, runA2, runB1, main_init, MAX_REQS]))
  have h4 : Reachable runB2 := h3.tail (Step.submit 1 rfl (by
    simp [main_submit, scheduler_submit, rr_scheduler, submit, queue_enqueue, runB1, runB2,
      fresh, toInt, rcb.zero, QUANTUM]))
  have h5 : Reachable runB3 := by
    have : main_get_next runB2 = runB3 := rfl
    rw [← this]
    exact h4.tail (Step.next rfl)
  exact ⟨h1, h2, h3, h4, h5⟩

/-! ## The pool of records -/

/-- C9, pool conservation.  In every state the driver goes through, the number of
records on the free list plus the number of active records, those in the ready queue
and the one held by the driver, is the capacity 64, the free list being the whole
chain from `free_rcb` to the null pointer; and when `main` enters its loop the free
list holds all 64 records and none is active. -/
theorem pool_conservation (s : State) (h : Reachable s) :
    (freeList s).length + (s.ready.length + (held s).length) = 64
      ∧ isChain s.requests s.free_rcb (freeList s)
      ∧ freeList main_init = List.range 64 ∧ active main_init = [] := by
  obtain ⟨fl, hc, hp, _, _⟩ := Inv_reachable s h
  have hfl := freeList_eq s fl hc hp
  refine ⟨?_, ?_, ?_, rfl⟩
  · have := hp.length_eq
    rw [hfl]
    simpa [MAX_REQS, Nat.add_assoc] using this
  · rw [hfl]; exact hc
  · have := freeList_eq main_init (List.range MAX_REQS) isChain_init (by simp [main_init, held])
    exact this

/-- C9 in the state of the run in which the record 0 is held by the driver and the
record 1 waits in the ready queue: 62 records are on the free list. -/
theorem pool_conservation_witness :
    (freeList runB3).length + (runB3.ready.length + (held runB3).length) = 64
      ∧ runB3.ready = [1] ∧ held runB3 = [0] :=
  ⟨(pool_conservation runB3 runB3_reachable.2.2.2.2).1, rfl, rfl⟩

/-- C10, exclusive ownership.  In every state the driver goes through, each of the 64
records of the table is in exactly one place, the free list, the ready queue or the
hands of the driver; no record occurs twice in the ready queue or twice on the free
list, none is on the free list and in the ready queue at once, and nothing but the
records of the table is in any of the three places. -/
theorem exclusive_ownership (s : State) (h : Reachable s) :
    (∀ i, i < 64 → (freeList s).count i + s.ready.count i + (held s).count i = 1)
      ∧ s.ready.Nodup ∧ (freeList s).Nodup
      ∧ (∀ i, i ∈ freeList s → i ∉ s.ready)
      ∧ (∀ i, i ∈ freeList s ++ s.ready ++ held s → i < 64) := by
  obtain ⟨fl, hc, hp, _, _⟩ := Inv_reachable s h
  rw [freeList_eq s fl hc hp]
  have hnd : (fl ++ s.ready ++ held s).Nodup := hp.nodup_iff.mpr (List.nodup_range _)
  have hnd2 : (fl ++ s.ready).Nodup := (List.nodup_append.mp hnd).1
  refine ⟨?_, (List.nodup_append.mp hnd2).2.1, (List.nodup_append.mp hnd2).1, ?_, ?_⟩
  · intro i hi
    have := hp.count_eq i
    rw [List.count_append, List.count_append] at this
    rw [this]
    exact List.count_eq_one_of_mem (List.nodup_range _) (List.mem_range.mpr hi)
  · intro i hi hq
    exact List.disjoint_of_nodup_append hnd2 hi hq
  · intro i hi
    exact List.mem_range.mp ((hp.mem_iff).mp hi)

/-- C10 in the state of the run in which the record 0 is held by the driver and the
record 1 waits in the ready queue. -/
theorem exclusive_ownership_witness :
    (freeList runB3).count 0 + runB3.ready.count 0 + (held runB3).count 0 = 1
      ∧ (freeList runB3).count 1 + runB3.ready.count 1 + (held runB3).count 1 = 1
      ∧ runB3.ready.Nodup ∧ (freeList runB3).Nodup :=
  have h := exclusive_ownership runB3 runB3_reachable.2.2.2.2
  ⟨h.1 0 (by decide), h.1 1 (by decide), h.2.1, h.2.2.1⟩

/-! ## How a turn ends -/

/-- The value a turn returns: `0` after a failed call, else `left > 0`. -/
theorem serve_ret (env : Env) (req : rcb) :
    (serve env req).ret = if (serve env req).failed then 0
      else if (serve env req).req.left > 0 then 1 else 0 := by
  by_cases h0 : req.left = 0
  · rw [serve_zero env req h0]; simp [h0]
  · rw [serve_pos env req h0]; exact serve_loop_ret env 0 _ _

/-- A turn subtracts from `left` the bytes written. -/
theorem serve_left (env : Env) (req : rcb) :
    (serve env req).req.left = req.left - bytesWritten (serve env req).trace := by
  by_cases h0 : req.left = 0
  · rw [serve_zero env req h0]; simp [bytesWritten]
  · rw [serve_pos env req h0, serve_loop_req]

/-- The free list is empty exactly when `free_rcb` is the null pointer. -/
theorem freeList_nil_iff (s : State) : freeList s = [] ↔ s.free_rcb = none := by
  unfold freeList
  cases h : s.free_rcb with
  | none => simp [chain, MAX_REQS]
  | some r => simp [chain, MAX_REQS]

/-- In the states of the driver the free list and the active records are 64
together. -/
theorem freeList_length (s : State) (hR : Reachable s) :
    (freeList s).length + (active s).length = 64 := by
  obtain ⟨fl, hc, hp, _, _⟩ := Inv_reachable s hR
  have := hp.length_eq
  rw [freeList_eq s fl hc hp]
  simpa [active, MAX_REQS, Nat.add_assoc] using this

/-- C11, pool exhaustion.  A connection opened while `free_rcb` is the null pointer
makes the driver fail its assertion, whatever the request: no state follows, nothing
is admitted, dropped or queued.  A connection opened while `free_rcb` points to the
record `r` never fails an assertion; on a request for a file that could be opened
`serve_client` returns `r`, the head of the free list, which leaves the free list.
In the states of the driver the free list is empty exactly when all 64 records are
active. -/
theorem pool_exhaustion (s : State) (fd : Int) (rq : Request) :
    (s.free_rcb = none → main_open s fd rq = none)
      ∧ (∀ r, s.free_rcb = some r →
          (∃ s1, main_open s fd rq = some s1)
          ∧ ∀ fin size, ∃ s1, serve_client s fd (Request.file fin size) = some (some r, s1)
              ∧ main_open s fd (Request.file fin size) = some { s1 with pc := PC.admitted r }
              ∧ s1.free_rcb = (s.requests r).next ∧ s1.ready = s.ready)
      ∧ (Reachable s → (freeList s = [] ↔ s.free_rcb = none)
          ∧ (s.free_rcb = none ↔ (active s).length = 64)
          ∧ (∀ r, s.free_rcb = some r → freeList s = r :: (freeList s).tail)) := by
  refine ⟨?_, ?_, ?_⟩
  · intro h
    simp [main_open, h]
  · intro r h
    refine ⟨?_, ?_⟩
    · cases rq <;> simp [main_open, serve_client, h]
    · intro fin size
      refine ⟨{ s with
          free_rcb := (s.requests r).next
          requests := Function.update s.requests r (fresh s.next_req fd fin size)
          next_req := s.next_req + 1 }, by simp [serve_client, h], ?_, rfl, rfl⟩
      simp [main_open, serve_client, h]
  · intro hR
    have hc := freeList_length s hR
    refine ⟨freeList_nil_iff s, ?_, ?_⟩
    · rw [← freeList_nil_iff]
      constructor
      · intro h0
        rw [h0] at hc
        simpa using hc
      · intro h64
        have : (freeList s).length = 0 := by omega
        exact List.length_eq_zero.mp this
    · intro r h
      simp [freeList, chain, MAX_REQS, h]

/-- The driver reaches the state in which `k` requests wait, for `k` up to 64: the
pool can be exhausted. -/
theorem crowded_reachable (k : Nat) (hk : k ≤ MAX_REQS) : Reachable (crowded k) := by
  induction k with
  | zero =>
    have : crowded 0 = main_init := by
      simp [crowded, main_init, MAX_REQS]
    rw [this]
    exact Relation.ReflTransGen.refl
  | succ k ih =>
    have hlt : k < MAX_REQS := hk
    have h1 := ih (Nat.le_of_lt hlt)
    have hnext : (main_init.requests k).next = if k + 1 < MAX_REQS then some (k + 1) else none := by
      unfold MAX_REQS at hlt ⊢
      by_cases h63 : k < 63
      · have : k + 1 < 64 := by omega
        simp [main_init, MAX_REQS, h63, this]
      · have : ¬ (k + 1 < 64) := by omega
        simp [main_init, MAX_REQS, h63, this, rcb.zero]
    let mid : State :=
      { crowded k with
        free_rcb := if k + 1 < MAX_REQS then some (k + 1) else none
        requests := Function.update (crowded k).requests k (fresh (k + 1) 5 7 100000)
        next_req := (k : Int) + 1 + 1
        pc := PC.admitted k }
    have hopen : main_open (crowded k) 5 (Request.file 7 100000) = some mid := by
      have hf : (crowded k).free_rcb = some k := by simp [crowded, hlt]
      have hr : ((crowded k).requests k).next
          = if k + 1 < MAX_REQS then some (k + 1) else none := by
        simp [crowded, hnext]
      simp only [main_open, serve_client, hf, mid, hr]
      simp [crowded]
    have h2 : Reachable mid := h1.tail (Step.conn 5 (Request.file 7 100000) rfl hopen)
    have hsub : main_submit mid k = some (crowded (k + 1)) := by
      simp only [main_submit, scheduler_submit, rr_scheduler, submit, queue_enqueue,
        Option.map_some', Option.some.injEq, mid]
      simp only [crowded, List.range_succ, Function.update_idem, Function.update_same]
      congr 1
      · funext i
        by_cases hi : i = k
        · subst hi; simp [fresh]
        · rw [Function.update_noteq hi]
          by_cases hik : i < k
          · have : i < k + 1 := by omega
            simp [hik, this]
          · have : ¬ (i < k + 1) := by omega
            simp [hik, this]
    exact h2.tail (Step.submit k rfl hsub)

/-- C11 in the state of the driver in which 64 requests wait: the next connection
fails the assertion; and in the state in which `main` enters its loop the first
connection is served with the record 0. -/
theorem pool_exhaustion_witness :
    main_open (crowded 64) 9 (Request.file 3 10) = none
      ∧ (active (crowded 64)).length = 64
      ∧ ∃ s1, serve_client main_init 5 (Request.file 7 5000) = some (some 0, s1) :=
  ⟨(pool_exhaustion (crowded 64) 9 (Request.file 3 10)).1 rfl,
    ((pool_exhaustion (crowded 64) 9 (Request.file 3 10)).2.2
      (crowded_reachable 64 (le_refl _))).2.1.mp rfl,
    by
      obtain ⟨s1, h, _⟩ := ((pool_exhaustion main_init 5 (Request.file 7 5000)).2.1 0 rfl).2
        7 5000
      exact ⟨s1, h⟩⟩

/-! ## The accounting of `left` -/

/-- The bytes written by the calls of a trace are not negative. -/
theorem bytesWritten_nonneg (tr : List Event) : 0 ≤ bytesWritten tr := by
  induction tr with
  | nil => simp [bytesWritten]
  | cons e tr ih =>
    cases e with
    | fread a g => simpa [bytesWritten] using ih
    | write a g =>
      simp only [bytesWritten]
      split_ifs <;> omega

/-- Opening a connection with a request for a file that can be opened, the free list
starting at the record `r`. -/
theorem main_open_file (s : State) (r : Nat) (fd : Int) (fin : Nat) (size : Int)
    (h : s.free_rcb = some r) :
    main_open s fd (Request.file fin size) = some
      { s with
        free_rcb := (s.requests r).next
        requests := Function.update s.requests r (fresh s.next_req fd fin size)
        next_req := s.next_req + 1
        pc := PC.admitted r } := by
  simp [main_open, serve_client, h]

/-- C13, a released record is as good as new.  Whatever a record holds, `serve_client`
acquiring it for the file `fin` of `size` bytes on the connection `fd` leaves in it
the new sequence number, connection, file and size (what an `int` keeps of it),
`max = 0`, `last = 0` and a null link: the same record as the acquisition of any
other content of the table gives,
in particular of the record never used.  So after a turn that releases the record
`r`, for a transfer done or failed, the next connection with a valid request acquires
`r` and finds in it nothing of the transfer before; and the release has closed the
file and the connection of that transfer. -/
theorem released_is_fresh (s : State) (r : Nat) (fd : Int) (fin : Nat) (size : Int)
    (h : s.free_rcb = some r) :
    (∃ s1, serve_client s fd (Request.file fin size) = some (some r, s1)
        ∧ s1.requests r = fresh s.next_req fd fin size
        ∧ s1.requests r = ⟨s.next_req, fd, some fin, toInt size, 0, 0, none⟩)
      ∧ (∀ s0 : State, s0.free_rcb = some r → s0.next_req = s.next_req →
          ∃ s1 s2, serve_client s fd (Request.file fin size) = some (some r, s1)
            ∧ serve_client s0 fd (Request.file fin size) = some (some r, s2)
            ∧ s1.requests r = s2.requests r)
      ∧ (∀ (env : Env) (s0 : State), (serve env (s0.requests r)).ret = 0 →
          ∃ s1 s2, main_turn env s0 r = some s1 ∧ s1.free_rcb = some r
            ∧ s1.out = s0.out ++ [Action.fclose (s0.requests r).file,
                Action.close (s0.requests r).client, Action.printf (s0.requests r).seq]
            ∧ main_open s1 fd (Request.file fin size) = some s2
            ∧ s2.pc = PC.admitted r
            ∧ s2.requests r = fresh s0.next_req fd fin size) := by
  refine ⟨?_, ?_, ?_⟩
  · refine ⟨{ s with
        free_rcb := (s.requests r).next
        requests := Function.update s.requests r (fresh s.next_req fd fin size)
        next_req := s.next_req + 1 }, by simp [serve_client, h], by simp, ?_⟩
    simp [fresh, toInt, rcb.zero]
  · intro s0 h0 hn
    refine ⟨{ s with
        free_rcb := (s.requests r).next
        requests := Function.update s.requests r (fresh s.next_req fd fin size)
        next_req := s.next_req + 1 },
      { s0 with
        free_rcb := (s0.requests r).next
        requests := Function.update s0.requests r (fresh s0.next_req fd fin size)
        next_req := s0.next_req + 1 }, by simp [serve_client, h], by simp [serve_client, h0], ?_⟩
    simp [hn]
  · intro env s0 hv
    have hfr := serve_frame env (s0.requests r)
    refine ⟨_, _, main_turn_release env s0 r hv, rfl, ?_,
      main_open_file _ r fd fin size rfl, rfl, ?_⟩
    · simp [main_release, hfr.1, hfr.2.1, hfr.2.2.1]
    · simp [main_release]

/-- C13 on the run of the two files: the record 0, released after the transfer of
the file of 5000 bytes, still holds what that transfer left; acquired for the file 4
of 300 bytes on the connection 9 it holds the new request and nothing else. -/
theorem released_is_fresh_witness :
    runB4.requests 0 = ⟨1, 5, some 7, 0, 8192, 5000, some 2⟩
      ∧ ∃ s1, serve_client runB4 9 (Request.file 4 300) = some (some 0, s1)
          ∧ s1.requests 0 = ⟨3, 9, some 4, 300, 0, 0, none⟩ := by
  obtain ⟨s1, h1, _, h3⟩ := (released_is_fresh runB4 0 9 4 300 rfl).1
  exact ⟨by simp [runB4], s1, h1, by simpa [toInt] using h3⟩

/-! ## A turn with nothing left -/

/-- C14, zero remaining.  A turn on a record with `left = 0` makes no read and no
write, leaves every field of the record as it was, `last` included, and returns `0`
without a failure; the driver then releases the record: it becomes the head of the
free list with only its link changed, its handles are closed, the completion line
is printed, and the ready queue and the other records are as they were. -/
theorem zero_remaining (env : Env) (s : State) (r : Nat) (h0 : (s.requests r).left = 0) :
    (serve env (s.requests r)).trace = []
      ∧ (serve env (s.requests r)).req = s.requests r
      ∧ (serve env (s.requests r)).ret = 0
      ∧ (serve env (s.requests r)).failed = false
      ∧ ∃ s1, main_turn env s r = some s1
          ∧ s1.free_rcb = some r ∧ s1.ready = s.ready
          ∧ s1.requests r = { s.requests r with next := s.free_rcb }
          ∧ (∀ j, j ≠ r → s1.requests j = s.requests j)
          ∧ s1.out = s.out ++ [Action.fclose (s.requests r).file,
              Action.close (s.requests r).client, Action.printf (s.requests r).seq]
          ∧ s1.pc = PC.idle := by
  have hs := serve_zero env (s.requests r) h0
  refine ⟨by rw [hs], by rw [hs], by rw [hs], by rw [hs], _,
    main_turn_release env s r (by rw [hs]), rfl, rfl, ?_, ?_, ?_, rfl⟩
  · simp [main_release, hs]
  · intro j hj
    simp [main_release, Function.update_noteq hj]
  · simp [main_release, hs]

/-- C14 for the request of an empty file: its only turn makes no call and the record
goes back to the free list. -/
theorem zero_remaining_witness :
    (serve full (emptyFile.requests 0)).trace = []
      ∧ (serve full (emptyFile.requests 0)).ret = 0
      ∧ ∃ s1, main_turn full emptyFile 0 = some s1 ∧ s1.free_rcb = some 0 ∧ s1.ready = [] := by
  have h := zero_remaining full emptyFile 0 (by simp [emptyFile])
  obtain ⟨h1, _, h3, _, s1, h5, h6, h7, _⟩ := h
  exact ⟨h1, h3, s1, h5, h6, h7⟩

/-! ## The iterations of the loop -/

/-- What decides whether the loop of `serve` goes on after an iteration in which both
calls succeeded: more than this iteration is made exactly when `n > 0` after the
subtraction and the result of the write, which `len` holds at the test of line 149,
is 8192. -/
theorem serve_loop_goes_on (env : Env) (k : Nat) (n : Int) (req : rcb)
    (h1 : 1 ≤ env.fread k (chunk n)) (h2 : 1 ≤ env.write k (env.fread k (chunk n))) :
    1 < reads (serve_loop env k n req).trace
      ↔ (n - env.write k (env.fread k (chunk n)) > 0
          ∧ env.write k (env.fread k (chunk n)) = MAX_HTTP_SIZE) := by
  have h1n : ¬ env.fread k (chunk n) < 1 := by omega
  have h2n : ¬ env.write k (env.fread k (chunk n)) < 1 := by omega
  by_cases h3 : n - env.write k (env.fread k (chunk n)) > 0
      ∧ env.write k (env.fread k (chunk n)) = MAX_HTTP_SIZE
  · have hpos : 0 < reads (serve_loop env (k + 1) (n - env.write k (env.fread k (chunk n)))
        { req with left := req.left - env.write k (env.fread k (chunk n)) }).trace := by
      rw [serve_loop]
      dsimp only
      split_ifs <;> simp [reads]
    rw [serve_loop_again env k n req h1n h2n h3]
    refine ⟨fun _ => h3, fun _ => ?_⟩
    simp only [reads]
    omega
  · rw [serve_loop_exit env k n req h1n h2n h3]
    refine ⟨fun h => ?_, fun h => absurd h h3⟩
    simp [reads] at h

/-- C15 at a short write: the record has 20000 bytes left and the quantum 8192, the
read returns the full chunk of 8192 bytes, the write sends 8000 of them.  After the
subtraction `n = 192 > 0` and the read was full, yet the loop makes no other
iteration: the turn is one read and one write, and `serve` returns `1`. -/
theorem short_write_ends_loop :
    shortWrite.fread 0 (chunk 8192) = 8192
      ∧ 8192 - shortWrite.write 0 (shortWrite.fread 0 (chunk 8192)) = 192
      ∧ serve shortWrite ⟨2, 6, some 8, 20000, 8192, 0, none⟩
          = ⟨1, ⟨2, 6, some 8, 12000, 8192, 8192, none⟩,
              [Event.fread 8192 8192, Event.write 8192 8000], false⟩
      ∧ reads (serve shortWrite ⟨2, 6, some 8, 20000, 8192, 0, none⟩).trace = 1 := by
  have hs : serve shortWrite ⟨2, 6, some 8, 20000, 8192, 0, none⟩
      = ⟨1, ⟨2, 6, some 8, 12000, 8192, 8192, none⟩,
          [Event.fread 8192 8192, Event.write 8192 8000], false⟩ := by
    simp [serve, serve_loop_exit, chunk, shortWrite, MAX_HTTP_SIZE]
  refine ⟨by simp [shortWrite, chunk, MAX_HTTP_SIZE], by simp [shortWrite], hs, ?_⟩
  rw [hs]
  rfl

/-- The loop of `serve` entered with `n` at most 8192 makes one iteration: one read,
with the count `chunk n`, and at most one write, of the bytes the read returned, at
least one. -/
theorem serve_loop_once (env : Env) (k : Nat) (n : Int) (req : rcb) (hn : n ≤ 8192) :
    (serve_loop env k n req).trace = [Event.fread (chunk n) (env.fread k (chunk n))]
      ∨ (1 ≤ env.fread k (chunk n)
        ∧ (serve_loop env k n req).trace = [Event.fread (chunk n) (env.fread k (chunk n)),
          Event.write (env.fread k (chunk n)) (env.write k (env.fread k (chunk n)))]) := by
  by_cases h1 : env.fread k (chunk n) < 1
  · left; rw [serve_loop_read_fail env k n req h1]
  · by_cases h2 : env.write k (env.fread k (chunk n)) < 1
    · right; rw [serve_loop_write_fail env k n req h1 h2]; exact ⟨by omega, rfl⟩
    · have h3 : ¬ (n - env.write k (env.fread k (chunk n)) > 0
          ∧ env.write k (env.fread k (chunk n)) = MAX_HTTP_SIZE) := by
        unfold MAX_HTTP_SIZE; omega
      right; rw [serve_loop_exit env k n req h1 h2 h3]; exact ⟨by omega, rfl⟩

/-- C16, one chunk per turn under round robin, for a record with `left` not negative
(a file below `2^31` bytes).  A turn on such a record stamped with the quantum 8192,
whatever the reads and writes return, makes at most one read and at most one write;
the count of the read, as `fread` receives it, is the `int` given, at least 1 and at
most 8192 bytes; the write is of what the read returned, at least 1 byte, and when
the read keeps the contract of `fread` and returns no more than it was asked, the
count of the write, as `write` receives it, is that `int`, at most 8192 bytes. -/
theorem one_chunk_per_turn (env : Env) (req : rcb) (hq : req.max = QUANTUM)
    (hl : 0 ≤ req.left) :
    reads (serve env req).trace ≤ 1 ∧ writes (serve env req).trace ≤ 1
      ∧ (∀ a g, Event.fread a g ∈ (serve env req).trace →
          (Event.fread a g).count = a ∧ 1 ≤ a ∧ a ≤ 8192)
      ∧ (∀ a g, Event.write a g ∈ (serve env req).trace →
          (∃ a0, Event.fread a0 a ∈ (serve env req).trace) ∧ 1 ≤ a
            ∧ ((∀ k b, env.fread k b ≤ b) →
                (Event.write a g).count = a ∧ a ≤ 8192)) := by
  by_cases h0 : req.left = 0
  · rw [serve_zero env req h0]
    simp [reads, writes]
  · rw [serve_pos env req h0]
    have hn : (if req.max ≠ 0 ∧ req.max < req.left then req.max else req.left) ≤ 8192 := by
      rw [hq]; unfold QUANTUM; split_ifs <;> omega
    have hpos :
        1 ≤ chunk (if req.max ≠ 0 ∧ req.max < req.left then req.max else req.left) := by
      rw [hq]; unfold QUANTUM chunk MAX_HTTP_SIZE; split_ifs <;> omega
    have hc := chunk_le (if req.max ≠ 0 ∧ req.max < req.left then req.max else req.left)
    unfold MAX_HTTP_SIZE at hc
    have hcount : ∀ x : Int, 1 ≤ x → x ≤ 8192 → toSize x = x := by
      intro x h1 h2; unfold toSize; omega
    rcases serve_loop_once env 0 _
      { req with last := if req.max ≠ 0 ∧ req.max < req.left then req.max else req.left } hn
      with h | ⟨hg, h⟩
    · rw [h]
      refine ⟨by simp [reads], by simp [writes], ?_, ?_⟩
      · intro a g hm
        simp only [List.mem_singleton, Event.fread.injEq] at hm
        obtain ⟨rfl, _⟩ := hm
        exact ⟨hcount _ hpos hc.2, hpos, hc.2⟩
      · intro a g hm
        simp at hm
    · rw [h]
      refine ⟨by simp [reads], by simp [writes], ?_, ?_⟩
      · intro a g hm
        simp only [List.mem_cons, Event.fread.injEq, List.mem_singleton, reduceCtorEq,
          or_false, List.not_mem_nil] at hm
        obtain ⟨rfl, _⟩ := hm
        exact ⟨hcount _ hpos hc.2, hpos, hc.2⟩
      · intro a g hm
        simp only [List.mem_cons, reduceCtorEq, Event.write.injEq, List.mem_singleton,
          false_or, List.not_mem_nil, or_false] at hm
        obtain ⟨rfl, _⟩ := hm
        refine ⟨⟨_, List.mem_cons_self _ _⟩, hg, ?_⟩
        intro hb
        have := hb 0 (chunk (if req.max ≠ 0 ∧ req.max < req.left then req.max else req.left))
        have hle : env.fread 0
            (chunk (if req.max ≠ 0 ∧ req.max < req.left then req.max else req.left))
            ≤ 8192 := by omega
        exact ⟨hcount _ hg hle, hle⟩

/-- C16 on the second turn of the file of 20000 bytes with full reads and writes: one
read and one write of 8192 bytes. -/
theorem one_chunk_per_turn_witness :
    reads (serve full ⟨2, 6, some 8, 11808, 8192, 8192, none⟩).trace ≤ 1
      ∧ writes (serve full ⟨2, 6, some 8, 11808, 8192, 8192, none⟩).trace ≤ 1
      ∧ (serve full ⟨2, 6, some 8, 11808, 8192, 8192, none⟩).trace
          = [Event.fread 8192 8192, Event.write 8192 8192] := by
  have h := one_chunk_per_turn full ⟨2, 6, some 8, 11808, 8192, 8192, none⟩ rfl (by decide)
  refine ⟨h.1, h.2.1, ?_⟩
  simp [serve, serve_loop_exit, chunk, full, MAX_HTTP_SIZE]

/-- C16 fails as stated at a file of `2^32 - 100` bytes: `serve_client` leaves
`left = -100` in the record, the first turn under round robin gives `fread` the
`int` `-100` as its count, and `fread` receives it as `2^64 - 100` bytes, more than
8192. -/
theorem one_chunk_per_turn_counterexample :
    (fresh 1 5 7 4294967196).left = -100
      ∧ (waiting full (fresh 1 5 7 4294967196) 0).max = QUANTUM
      ∧ (nthTurn full (fresh 1 5 7 4294967196) 0).trace = [Event.fread (-100) (-100)]
      ∧ (Event.fread (-100) (-100)).count = 18446744073709551516
      ∧ ¬ (∀ e ∈ (nthTurn full (fresh 1 5 7 4294967196) 0).trace, e.count ≤ 8192) := by
  have ht : (nthTurn full (fresh 1 5 7 4294967196) 0).trace = [Event.fread (-100) (-100)] := by
    simp [nthTurn, waiting, serve, serve_loop_read_fail, chunk, full, MAX_HTTP_SIZE, fresh,
      toInt, rcb.zero, QUANTUM]
  refine ⟨rfl, rfl, ht, rfl, ?_⟩
  rw [ht]
  intro h
  have := h _ (List.mem_singleton_self _)
  revert this
  decide

/-! ## Progress -/

/-- A loop that returns non-zero has written at least one byte. -/
theorem serve_loop_progress (env : Env) (k : Nat) (n : Int) (req : rcb) :
    (serve_loop env k n req).ret ≠ 0 → 1 ≤ bytesWritten (serve_loop env k n req).trace := by
  refine serve_loop_cases env (fun _ _ _ t => t.ret ≠ 0 → 1 ≤ bytesWritten t.trace)
    ?_ ?_ ?_ ?_ k n req
  · intro k n req _ h; exact absurd rfl h
  · intro k n req _ _ h; exact absurd rfl h
  · intro k n req t _ h2 _ _ _ _
    have hpos : 0 < env.write k (env.fread k (chunk n)) := by omega
    have := bytesWritten_nonneg t.trace
    simp only [bytesWritten, gt_iff_lt, hpos, if_true]
    omega
  · intro k n req _ h2 _ _
    have hpos : 0 < env.write k (env.fread k (chunk n)) := by omega
    simp only [bytesWritten, gt_iff_lt, hpos, if_true]
    omega

/-- The iterations of the loop are at most `n`, and one when `n` is not positive: `n`
goes down by at least 1 in every iteration that is followed by another. -/
theorem serve_loop_reads_le (env : Env) (k : Nat) (n : Int) (req : rcb) :
    reads (serve_loop env k n req).trace ≤ max n.toNat 1 := by
  refine serve_loop_cases env (fun _ n _ t => reads t.trace ≤ max n.toNat 1) ?_ ?_ ?_ ?_ k n req
  · intro k n req _; simp [reads]
  · intro k n req _ _; simp [reads]
  · intro k n req t _ h2 h3 _ ih
    simp only [reads]
    simp only at ih
    omega
  · intro k n req _ _ _; simp [reads]

/-- A turn that returns non-zero has taken at least one byte off `left` and leaves
`left` positive. -/
theorem serve_progress (env : Env) (req : rcb) (h : (serve env req).ret ≠ 0) :
    (serve env req).req.left + 1 ≤ req.left ∧ 0 < (serve env req).req.left := by
  have hret := serve_ret env req
  have hpos : 0 < (serve env req).req.left := by
    by_contra hn
    rw [hret] at h
    split_ifs at h <;> simp at h
  refine ⟨?_, hpos⟩
  by_cases h0 : req.left = 0
  · rw [serve_zero env req h0] at h; exact absurd rfl h
  · rw [serve_left]
    rw [serve_pos env req h0] at h ⊢
    have := serve_loop_progress env 0 _ _ h
    omega

/-- While every turn returns non-zero, `left` after `i` turns is at most its value at
admission less `i`. -/
theorem waitingWith_left_le (envs : Nat → Env) (r : rcb) (i : Nat)
    (h : ∀ j, j < i → (serve (envs j) (waitingWith envs r j)).ret ≠ 0) :
    (waitingWith envs r i).left ≤ r.left - i := by
  induction i with
  | zero => simp [waitingWith]
  | succ i ih =>
    have h1 := ih (fun j hj => h j (Nat.lt_succ_of_lt hj))
    have h2 := (serve_progress (envs i) (waitingWith envs r i) (h i (Nat.lt_succ_self i))).1
    show (serve (envs i) (waitingWith envs r i)).req.left ≤ _
    push_cast
    omega

/-- C18, progress and termination.  Whatever the reads and writes return: a turn that
returns non-zero, the only kind that is followed by a resubmission, has taken at
least 1 off `left`; the loop of `serve` entered with `n` makes at most `max(n, 1)`
iterations, as `n` goes down by the result of the write, at least 1, in every
iteration that is followed by another; and for a request admitted with `S` bytes
some turn among the first `max(S, 1)` returns `0`, every turn before it having
returned non-zero: on that turn the driver releases the record instead of
submitting it again. -/
theorem progress_termination (envs : Nat → Env) (r : rcb) (S : Nat) (hS : r.left = S) :
    (∀ env req, (serve env req).ret ≠ 0 → (serve env req).req.left + 1 ≤ req.left)
      ∧ (∀ env k n req, reads (serve_loop env k n req).trace ≤ max n.toNat 1)
      ∧ (∀ env k n req, 1 < reads (serve_loop env k n req).trace →
          1 ≤ env.write k (env.fread k (chunk n))
            ∧ 0 < n - env.write k (env.fread k (chunk n)))
      ∧ ∃ i, i < max S 1
          ∧ (serve (envs i) (waitingWith envs r i)).ret = 0
          ∧ (∀ j, j < i → (serve (envs j) (waitingWith envs r j)).ret ≠ 0)
          ∧ ∀ (s : State) (p : Nat), s.requests p = waitingWith envs r i →
              ∃ s1, main_turn (envs i) s p = some s1 ∧ s1.free_rcb = some p
                ∧ s1.ready = s.ready := by
  refine ⟨fun env req h => (serve_progress env req h).1, serve_loop_reads_le, ?_, ?_⟩
  · intro env k n req hr
    by_cases h1 : env.fread k (chunk n) < 1
    · rw [serve_loop_read_fail env k n req h1] at hr
      simp [reads] at hr
    · by_cases h2 : env.write k (env.fread k (chunk n)) < 1
      · rw [serve_loop_write_fail env k n req h1 h2] at hr
        simp [reads] at hr
      · have := (serve_loop_goes_on env k n req (by omega) (by omega)).mp hr
        exact ⟨by omega, this.1⟩
  · have hex : ∃ i, i < max S 1 ∧ (serve (envs i) (waitingWith envs r i)).ret = 0 := by
      by_contra hne
      push_neg at hne
      have hle := waitingWith_left_le envs r (max S 1) (fun j hj => hne j hj)
      have hlast := (serve_progress (envs (max S 1 - 1)) (waitingWith envs r (max S 1 - 1))
        (hne (max S 1 - 1) (by omega))).2
      have hstep : (waitingWith envs r (max S 1 - 1 + 1)).left
          = (serve (envs (max S 1 - 1)) (waitingWith envs r (max S 1 - 1))).req.left := rfl
      have hidx : max S 1 - 1 + 1 = max S 1 := by omega
      rw [hidx] at hstep
      rw [hstep, hS] at hle
      push_cast at hle
      omega
    classical
    have hP : ∃ i, (serve (envs i) (waitingWith envs r i)).ret = 0 := by
      obtain ⟨i, _, hi⟩ := hex
      exact ⟨i, hi⟩
    refine ⟨Nat.find hP, ?_, Nat.find_spec hP, fun j hj => Nat.find_min hP hj, ?_⟩
    · obtain ⟨i, hi, hi0⟩ := hex
      exact lt_of_le_of_lt (Nat.find_min' hP hi0) hi
    · intro s p hp
      refine ⟨_, main_turn_release (envs (Nat.find hP)) s p
        (by rw [hp]; exact Nat.find_spec hP), rfl, rfl⟩

/-- C18 for a file of 3 bytes sent one byte per turn: the third turn returns `0`. -/
theorem progress_termination_witness :
    ∃ i, i < 3
      ∧ (serve ⟨fun _ _ => 1, fun _ _ => 1⟩
          (waitingWith (fun _ => ⟨fun _ _ => 1, fun _ _ => 1⟩) (fresh 1 5 7 3) i)).ret = 0 := by
  obtain ⟨i, hi, h0, _⟩ :=
    (progress_termination (fun _ => ⟨fun _ _ => 1, fun _ _ => 1⟩) (fresh 1 5 7 3) 3 rfl).2.2.2
  exact ⟨i, hi, h0⟩

/-! ## Bytes read and bytes written -/

/-- When every write sends all the bytes offered, a turn without a failed call writes
the bytes it read. -/
theorem serve_loop_read_written (env : Env) (hw : ∀ k a, env.write k a = a) (k : Nat)
    (n : Int) (req : rcb) :
    (serve_loop env k n req).failed = false →
      bytesRead (serve_loop env k n req).trace = bytesWritten (serve_loop env k n req).trace := by
  refine serve_loop_cases env
    (fun _ _ _ t => t.failed = false → bytesRead t.trace = bytesWritten t.trace) ?_ ?_ ?_ ?_ k n req
  · intro k n req _ h; simp at h
  · intro k n req _ _ h; simp at h
  · intro k n req t h1 _ _ _ ih hf
    have hpos : 0 < env.fread k (chunk n) := by omega
    simp only [bytesRead, bytesWritten, hw, gt_iff_lt, hpos, if_true]
    rw [ih hf]
  · intro k n req h1 _ _ _
    have hpos : 0 < env.fread k (chunk n) := by omega
    simp [bytesRead, bytesWritten, hw, hpos]

/-- C19 at a short write: the record has 20000 bytes left and the quantum 8192, the
read returns 8192 bytes, the write sends 8000 of them.  The turn ends without a
failed call and returns `1`; 8192 bytes were read and 8000 written and taken off
`left`, so 192 bytes read are never sent, and the offset of the file, 8192, is not
the size less `left`, `20000 - 12000 = 8000`. -/
theorem short_write_drops_bytes :
    (serve shortWrite ⟨2, 6, some 8, 20000, 8192, 0, none⟩).failed = false
      ∧ (serve shortWrite ⟨2, 6, some 8, 20000, 8192, 0, none⟩).ret = 1
      ∧ bytesRead (serve shortWrite ⟨2, 6, some 8, 20000, 8192, 0, none⟩).trace = 8192
      ∧ bytesWritten (serve shortWrite ⟨2, 6, some 8, 20000, 8192, 0, none⟩).trace = 8000
      ∧ (serve shortWrite ⟨2, 6, some 8, 20000, 8192, 0, none⟩).req.left = 12000
      ∧ bytesRead (serve shortWrite ⟨2, 6, some 8, 20000, 8192, 0, none⟩).trace
          ≠ 20000 - (serve shortWrite ⟨2, 6, some 8, 20000, 8192, 0, none⟩).req.left := by
  have hs : serve shortWrite ⟨2, 6, some 8, 20000, 8192, 0, none⟩
      = ⟨1, ⟨2, 6, some 8, 12000, 8192, 8192, none⟩,
          [Event.fread 8192 8192, Event.write 8192 8000], false⟩ := by
    simp [serve, serve_loop_exit, chunk, shortWrite, MAX_HTTP_SIZE]
  rw [hs]
  simp [bytesRead, bytesWritten]

/-! ## The order of the calls of `main` -/

end Sws
